import Mathlib

/-!
# The rotating-square canvas demo (`quadradogirando/treco.js`)

A shallow embedding of `treco.js` and the properties of its coordinate mapper,
vertex store, frame renderer and animation driver.

## Numbers

JavaScript numbers are IEEE 754 binary64 values. The coordinate mapper is
embedded twice. `Binary64.mapToViewport` is the computation of line 57 as the
program performs it, every operation rounded to nearest, with signed zeros,
infinities and `NaN`; the properties of the mapper for all inputs are stated on
it. `mapToViewport` is the same expression over an arbitrary linear ordered
field `α` (instantiate `α := ℚ` to evaluate, `α := ℝ` for the trigonometric
values), in which a value that is not a finite number (`undefined`, `NaN`,
`Infinity`, `-Infinity`) is `none`; it gives the result of the program wherever no
operation rounds (`Binary64.mapToViewport_refines_exact`), and the renderer and
the driver, whose properties are about which calls are made and about fixed
pixel constants, are stated on it.

## The host

`Math.PI`, and the cosine and sine the canvas uses for `rotate`, are supplied by
a `Host`; the 2D context is modelled by the list of calls the program makes on
it and by its current transformation matrix, which `translate` and `rotate`
post-multiply as the HTML canvas specification prescribes.
-/

namespace Treco

variable {α : Type} [LinearOrderedField α]

/-! ## Geometry store -/

/-- The global `vertices` (lines 23-25): a `Float32Array` of twelve numbers, the
x and y coordinates of six points. All twelve are exactly representable. -/
def vertices (α : Type) [LinearOrderedField α] : List α :=
  [-0.5, -0.5, 0.5, -0.5, 0.5, 0.5, -0.5, -0.5, 0.5, 0.5, -0.5, 0.5]

/-- The global `numPoints = vertices.length / 2` (line 31). -/
def numPoints (α : Type) [LinearOrderedField α] : Nat :=
  (vertices α).length / 2

/-- Reading `arr[j]` on a typed array for an integer `j`: the element when `j`
is a valid index, `undefined` (here `none`) otherwise, in particular for every
negative `j`. -/
def typedArrayGet (arr : List α) (j : Int) : Option α :=
  if 0 ≤ j then arr[j.toNat]? else none

/-- The function `getVertex(i)` (lines 65-68) on an integer `i`. The operator `%` of
JavaScript is the truncated remainder, which takes the sign of the dividend:
`Int.tmod`. -/
def getVertex (i : Int) : Option α × Option α :=
  let j := (Int.tmod i (numPoints α)) * 2
  (typedArrayGet (vertices α) j, typedArrayGet (vertices α) (j + 1))

/-! ## Coordinate mapper -/

/-- The quotient `a / b` of two finite numbers, without rounding: for `b = 0`
JavaScript yields `Infinity`, `-Infinity` or `NaN`, none of them a finite number.
Rounding and overflow are in `Binary64.F64.div`. -/
def jsDiv (a b : α) : Option α :=
  if b = 0 then none else some (a / b)

/-- The function `mapToViewport(x, y, n)` (lines 56-58), the globals `w` and `h`
passed explicitly: `[((x + n / 2) * w) / n, ((-y + n / 2) * h) / n]`, without
rounding. The inner division is by the literal `2`. This is the result of the
program when every intermediate value is a binary64 number; the computation
with rounding is `Binary64.mapToViewport`. -/
def mapToViewport (w h x y n : α) : Option α × Option α :=
  (jsDiv ((x + n / 2) * w) n, jsDiv ((-y + n / 2) * h) n)

/-! ## The host: `Math` and the 2D context -/

/-- What the program takes from its host: `Math.PI`, and the cosine and sine
with which the canvas builds the matrix of `rotate(angle)`. -/
structure Host (α : Type) where
  /-- The constant `Math.PI`. -/
  PI : α
  /-- Cosine of an angle in radians. -/
  cos : α → α
  /-- Sine of an angle in radians. -/
  sin : α → α

/-- One call on the `CanvasRenderingContext2D` (an assignment to `fillStyle`
counts as a call). A `moveTo` or `lineTo` one of whose arguments is not a finite
number does nothing on a canvas and is not recorded. -/
inductive Cmd (α : Type) where
  | fillStyle (colour : String)
  | rect (x y w h : α)
  | fill
  | beginPath
  | moveTo (x y : α)
  | lineTo (x y : α)
  | closePath
  | arc (x y radius startAngle endAngle : α)
  | stroke
  | translate (x y : α)
  | rotate (angle : α)
  deriving DecidableEq

/-- An affine transformation of the plane, with the six entries of the canvas:
the matrix `[a c e; b d f; 0 0 1]`. -/
@[ext]
structure Affine (α : Type) where
  a : α
  b : α
  c : α
  d : α
  e : α
  f : α
  deriving DecidableEq

namespace Affine

/-- The identity matrix: the transformation of a fresh 2D context. -/
def identity : Affine α := ⟨1, 0, 0, 1, 0, 0⟩

/-- The matrix product `m * k`: as a map of points, `k` first, then `m`. -/
def mul (m k : Affine α) : Affine α :=
  ⟨m.a * k.a + m.c * k.b, m.b * k.a + m.d * k.b,
   m.a * k.c + m.c * k.d, m.b * k.c + m.d * k.d,
   m.a * k.e + m.c * k.f + m.e, m.b * k.e + m.d * k.f + m.f⟩

/-- The translation matrix by `(tx, ty)`. -/
def translation (tx ty : α) : Affine α := ⟨1, 0, 0, 1, tx, ty⟩

/-- The rotation matrix of an angle with cosine `cs` and sine `sn`. -/
def rotation (cs sn : α) : Affine α := ⟨cs, sn, -sn, cs, 0, 0⟩

/-- The image of the point `p` under `m`. -/
def apply (m : Affine α) (p : α × α) : α × α :=
  (m.a * p.1 + m.c * p.2 + m.e, m.b * p.1 + m.d * p.2 + m.f)

end Affine

/-- The effect of one call on the current transformation matrix: `translate` and
`rotate` post-multiply it, every other call leaves it as it is. -/
def Cmd.exec (host : Host α) (ctm : Affine α) : Cmd α → Affine α
  | .translate x y => ctm.mul (Affine.translation x y)
  | .rotate angle => ctm.mul (Affine.rotation (host.cos angle) (host.sin angle))
  | _ => ctm

/-- The current transformation matrix after a sequence of calls. -/
def execAll (host : Host α) (ctm : Affine α) (calls : List (Cmd α)) : Affine α :=
  calls.foldl (Cmd.exec host) ctm

/-! ## Frame renderer -/

/-- One iteration of the loop of `draw` (lines 83-86) for the index `i`: nothing
for `i == 3 || i == 4`; otherwise the vertex is scaled and mapped with the
default window size `n = 5`, and the path moves to the point for `i == 0` and
draws a line to it for every other `i`. A vertex that is `undefined` makes both
coordinates `NaN`. -/
def drawVertex (w h scale : α) (i : Nat) : List (Cmd α) :=
  if i = 3 ∨ i = 4 then []
  else
    match getVertex (i : Int) with
    | (some vx, some vy) =>
      match mapToViewport w h (vx * scale) (vy * scale) 5 with
      | (some x, some y) => if i = 0 then [Cmd.moveTo x y] else [Cmd.lineTo x y]
      | _ => []
    | _ => []

/-- The outline path of `draw` (lines 81-88): `beginPath`, the loop over
`i = 0, ..., numPoints - 1`, `closePath`. -/
def drawOutline (w h scale : α) : List (Cmd α) :=
  [Cmd.beginPath] ++ (List.range (numPoints α)).flatMap (drawVertex w h scale) ++ [Cmd.closePath]

/-- One marker of `draw` (for instance lines 94-98): a full circle of radius 5
about `(x, y)`, stroked, then filled with `colour`. -/
def drawMarker (host : Host α) (x y : α) (colour : String) : List (Cmd α) :=
  [Cmd.beginPath, Cmd.arc x y 5 0 (2 * host.PI), Cmd.stroke, Cmd.fillStyle colour, Cmd.fill]

/-- The function `draw(ctx, scale)` (lines 76-117) as the calls it makes on `ctx`,
in order: the background, the outline filled red, the four markers. -/
def draw (host : Host α) (w h scale : α) : List (Cmd α) :=
  [Cmd.fillStyle "rgba(0, 204, 204, 1)", Cmd.rect 0 0 w h, Cmd.fill]
    ++ drawOutline w h scale
    ++ [Cmd.fillStyle "red", Cmd.fill]
    ++ drawMarker host 160 160 "green"
    ++ drawMarker host 240 240 "white"
    ++ drawMarker host 240 160 "blue"
    ++ drawMarker host 160 240 "red"

/-- The markers a sequence of calls paints: for every arc that is stroked and then
filled after an assignment to `fillStyle`, the fill colour and the centre. -/
def filledMarkers : List (Cmd α) → List (String × (α × α))
  | [] => []
  | Cmd.arc x y _ _ _ :: Cmd.stroke :: Cmd.fillStyle colour :: Cmd.fill :: rest =>
    (colour, (x, y)) :: filledMarkers rest
  | _ :: rest => filledMarkers rest

/-- The points of a path: the arguments of its `moveTo` and `lineTo` calls. -/
def pathPoints : List (Cmd α) → List (α × α)
  | [] => []
  | Cmd.moveTo x y :: rest => (x, y) :: pathPoints rest
  | Cmd.lineTo x y :: rest => (x, y) :: pathPoints rest
  | _ :: rest => pathPoints rest

/-! ## Animation driver -/

/-- The closure variable `scale = 1.0` (line 141); nothing assigns to it. -/
def scale : α := 1.0

/-- The closure variable `angle = -2 * Math.PI / 180` (line 142). -/
def angle (host : Host α) : α := -2 * host.PI / 180

/-- The state of the animation: the closure variable `input` and the current
transformation matrix of the 2D context. -/
structure Anim (α : Type) where
  input : String
  ctm : Affine α

/-- The state when `mainEntrance` has set the animation up: `input = "r"`
(line 144) and the identity matrix of a fresh context. -/
def Anim.start : Anim α := ⟨"r", Affine.identity⟩

/-- The `keydown` listener (lines 146-159): four successive tests of `e.key`. -/
def keydown (input : String) (key : String) : String :=
  let input := if key = "r" then "r" else input
  let input := if key = "g" then "g" else input
  let input := if key = "b" then "b" else input
  let input := if key = "w" then "w" else input
  input

/-- The calls one run of the callback `runanimation` (lines 161-192) makes on `ctx`:
four successive tests of `input`, each drawing the frame and then rotating
about its own point. -/
def runanimationCalls (host : Host α) (w h : α) (input : String) : List (Cmd α) :=
  (if input = "r" then
    draw host w h scale
      ++ [Cmd.translate 160 240, Cmd.rotate (angle host), Cmd.translate (-160) (-240)]
   else [])
  ++ (if input = "g" then
    draw host w h scale
      ++ [Cmd.translate 160 160, Cmd.rotate (angle host), Cmd.translate (-160) (-160)]
   else [])
  ++ (if input = "b" then
    draw host w h scale
      ++ [Cmd.translate 240 160, Cmd.rotate (angle host), Cmd.translate (-240) (-160)]
   else [])
  ++ (if input = "w" then
    draw host w h scale
      ++ [Cmd.translate 240 240, Cmd.rotate (angle host), Cmd.translate (-240) (-240)]
   else [])

/-- One run of the animation callback: `input` is read, not written, and the
context executes the calls. -/
def runanimation (host : Host α) (w h : α) (st : Anim α) : Anim α :=
  ⟨st.input, execAll host st.ctm (runanimationCalls host w h st.input)⟩

/-- What the host delivers to the program: a key press, or a frame, at which
`runanimation` runs (the first time called by `mainEntrance`, line 196, then as
the callback passed to `requestAnimationFrame`, line 191). -/
inductive Event where
  | key (k : String)
  | frame
  deriving DecidableEq

/-- The reaction of the program to one event. -/
def step (host : Host α) (w h : α) (st : Anim α) : Event → Anim α
  | .key k => ⟨keydown st.input k, st.ctm⟩
  | .frame => runanimation host w h st

/-- The state after a sequence of events, oldest first. -/
def run (host : Host α) (w h : α) (st : Anim α) (events : List Event) : Anim α :=
  events.foldl (step host w h) st

/-! ## The vocabulary of the properties -/

/-- The first closed path in a sequence of calls: from the first `beginPath`, the
calls up to and including the next `closePath`. -/
def throughClosePath : List (Cmd α) → List (Cmd α)
  | [] => []
  | Cmd.closePath :: _ => [Cmd.closePath]
  | c :: rest => c :: throughClosePath rest

/-- The calls from the first `beginPath` of a sequence to the `closePath` that
follows it. -/
def firstClosedPath : List (Cmd α) → List (Cmd α)
  | [] => []
  | Cmd.beginPath :: rest => Cmd.beginPath :: throughClosePath rest
  | _ :: rest => firstClosedPath rest

/-- The first `translate` of a sequence of calls, as a point. -/
def firstTranslate : List (Cmd α) → Option (α × α)
  | [] => none
  | Cmd.translate x y :: _ => some (x, y)
  | _ :: rest => firstTranslate rest

/-- The outline point `P_i = mapToViewport(s * x_i, s * y_i)` with `n = 5` and
`(x_i, y_i) = getVertex(i)`, when all four numbers are finite. -/
def outlinePoint (w h s : α) (i : Int) : Option (α × α) :=
  match getVertex i with
  | (some x, some y) =>
    match mapToViewport w h (s * x) (s * y) 5 with
    | (some px, some py) => some (px, py)
    | _ => none
  | _ => none

/-- The centre of the marker that a frame fills with `colour`. -/
def markerCentre (host : Host α) (w h : α) (colour : String) : Option (α × α) :=
  List.lookup colour (filledMarkers (draw host w h scale))

/-- The point about which the animation callback rotates when `input` is the
value of the selector: the argument of its first `translate`. -/
def runanimationAnchor (host : Host α) (w h : α) (input : String) : Option (α × α) :=
  firstTranslate (runanimationCalls host w h input)

/-- The four states of the pivot selector. -/
inductive Pivot where
  | red
  | green
  | blue
  | white
  deriving DecidableEq

/-- The key that selects a pivot state, which is also the value `input` holds in
that state. -/
def Pivot.key : Pivot → String
  | .red => "r"
  | .green => "g"
  | .blue => "b"
  | .white => "w"

/-- The fill colour named after a pivot state. -/
def Pivot.colour : Pivot → String
  | .red => "red"
  | .green => "green"
  | .blue => "blue"
  | .white => "white"

/-- The anchors `a_red = (160,240)`, `a_green = (160,160)`, `a_blue = (240,160)`,
`a_white = (240,240)`. -/
def Pivot.anchor : Pivot → α × α
  | .red => (160, 240)
  | .green => (160, 160)
  | .blue => (240, 160)
  | .white => (240, 240)

/-- The rotation of angle `theta` about the point `p`:
`translate(p) . rotate(theta) . translate(-p)`. -/
def rotationAbout (host : Host α) (theta : α) (p : α × α) : Affine α :=
  ((Affine.translation p.1 p.2).mul (Affine.rotation (host.cos theta) (host.sin theta))).mul
    (Affine.translation (-p.1) (-p.2))

/-- The pivot rotation `M(s) = translate(a_s) . rotate(-2*pi/180) . translate(-a_s)`. -/
def Pivot.matrix (host : Host α) (s : Pivot) : Affine α :=
  rotationAbout host (-2 * host.PI / 180) s.anchor

/-- The composition of a list of transformations, the first one outermost:
`M_1 * M_2 * ... * M_k`. -/
def composeAll (ms : List (Affine α)) : Affine α :=
  ms.foldl Affine.mul Affine.identity

/-! ## Binary64 arithmetic

The numbers of `treco.js` are IEEE 754 binary64 values and every operation of
line 57 rounds to nearest, ties to even. This section embeds that arithmetic:
a finite number is a sign and a rational magnitude, and the result of an
operation is the exact rational result rounded by `round64`. -/

namespace Binary64

/-- The integer nearest to `t`; of two equally near integers, the even one. -/
def rne (t : ℚ) : ℤ :=
  if t - ⌊t⌋ < 1 / 2 then ⌊t⌋
  else if 1 / 2 < t - ⌊t⌋ then ⌊t⌋ + 1
  else if ⌊t⌋ % 2 = 0 then ⌊t⌋ else ⌊t⌋ + 1

/-- The binary exponent at which a magnitude `m` is rounded: `⌊log2 m⌋`, and
`-1022` for every magnitude below `2 ^ (-1022)` (the subnormal numbers). -/
def expo (m : ℚ) : ℤ := max (Int.log 2 m) (-1022)

/-- The spacing of the binary64 numbers around the magnitude `m`: 53 significant
bits, so `2 ^ (expo m - 52)`, which is `2 ^ (-1074)` for the subnormal numbers. -/
def ulp (m : ℚ) : ℚ := (2 : ℚ) ^ (expo m - 52)

/-- The magnitude `m ≥ 0` rounded to nearest, ties to even, with no bound on the
exponent from above. -/
def round64 (m : ℚ) : ℚ := rne (m / ulp m) * ulp m

/-- A binary64 value: `NaN`, an infinity with its sign, or a finite number with
its sign (`neg` is the sign bit, so `fin true 0` is `-0`) and magnitude. -/
inductive F64 where
  | nan
  | inf (neg : Bool)
  | fin (neg : Bool) (mag : ℚ)
  deriving DecidableEq

/-- The binary64 result with sign `neg` of an operation whose exact result has
the magnitude `m`: `m` rounded, and an infinity when the rounded magnitude
reaches `2 ^ 1024` (overflow). -/
def ofMag (neg : Bool) (m : ℚ) : F64 :=
  if round64 m < 2 ^ 1024 then F64.fin neg (round64 m) else F64.inf neg

/-- The rational number with sign bit `neg` and magnitude `m`. -/
def sval (neg : Bool) (m : ℚ) : ℚ := if neg then -m else m

/-- The unary minus `-x`: the sign bit is flipped. -/
def F64.neg : F64 → F64
  | .nan => .nan
  | .inf s => .inf (!s)
  | .fin s m => .fin (!s) m

/-- The sum `x + y`. An exact sum of zero is `+0`, unless both operands are
negative (then both are `-0`) and it is `-0`. -/
def F64.add : F64 → F64 → F64
  | .nan, _ => .nan
  | _, .nan => .nan
  | .inf s, .inf t => if s = t then .inf s else .nan
  | .inf s, .fin _ _ => .inf s
  | .fin _ _, .inf t => .inf t
  | .fin s a, .fin t b =>
    if sval s a + sval t b = 0 then .fin (s && t) 0
    else ofMag (decide (sval s a + sval t b < 0)) |sval s a + sval t b|

/-- The product `x * y`; the sign is the exclusive or of the signs, and an
infinity times a zero is `NaN`. -/
def F64.mul : F64 → F64 → F64
  | .nan, _ => .nan
  | _, .nan => .nan
  | .inf s, .inf t => .inf (xor s t)
  | .inf s, .fin t b => if b = 0 then .nan else .inf (xor s t)
  | .fin s a, .inf t => if a = 0 then .nan else .inf (xor s t)
  | .fin s a, .fin t b => ofMag (xor s t) (a * b)

/-- The quotient `x / y`; the sign is the exclusive or of the signs. Dividing a
non-zero number by a zero gives an infinity, and `0 / 0` and `Infinity / Infinity`
give `NaN`: no division raises an error. -/
def F64.div : F64 → F64 → F64
  | .nan, _ => .nan
  | _, .nan => .nan
  | .inf _, .inf _ => .nan
  | .inf s, .fin t _ => .inf (xor s t)
  | .fin s _, .inf t => .fin (xor s t) 0
  | .fin s a, .fin t b =>
    if b = 0 then (if a = 0 then .nan else .inf (xor s t)) else ofMag (xor s t) (a / b)

/-- The value of a decimal literal of the source text: the binary64 number
nearest to it. -/
def lit (q : ℚ) : F64 := ofMag (decide (q < 0)) |q|

/-- The function `mapToViewport(x, y, n)` (lines 56-58) in binary64, the globals
`w` and `h` passed explicitly: `[((x + n / 2) * w) / n, ((-y + n / 2) * h) / n]`,
each of the operations rounded. -/
def mapToViewport (w h x y n : F64) : F64 × F64 :=
  ((((x.add (n.div (lit 2))).mul w).div n), ((((y.neg).add (n.div (lit 2))).mul h).div n))

/-- Whether a value is a finite number (what `Number.isFinite` tests). -/
def F64.isFinite : F64 → Bool
  | .fin _ _ => true
  | _ => false

/-- The magnitude `m` is that of a finite binary64 number. -/
def IsDouble (m : ℚ) : Prop := 0 ≤ m ∧ round64 m = m ∧ m < 2 ^ 1024

/-- The rational `q` is a finite binary64 number: computing it needs no
rounding. -/
def Exact (q : ℚ) : Prop := round64 |q| = |q| ∧ |q| < 2 ^ 1024

/-- The value `x` is a finite number and, as a rational, equals `q` (both zeros
equal 0). -/
def F64.Represents (x : F64) (q : ℚ) : Prop :=
  ∃ s m, x = F64.fin s m ∧ 0 ≤ m ∧ sval s m = q

/-- One coordinate of the mapper with each operation rounded:
`fl(fl(fl(v + n/2) * c) / n)`, for a window size `n` whose half is exact. -/
def roundedCoord (nm c v : ℚ) : ℚ :=
  round64 (round64 (round64 (v + nm / 2) * c) / nm)

end Binary64

/-! ## Lemmas on the geometry store and the mapper -/

theorem numPoints_eq : numPoints α = 6 := by
  simp [numPoints, vertices]

/-- When the truncated remainder of `i` by 6 is the natural number `k`, the
vertex returned is read at the positions `2 * k` and `2 * k + 1`. -/
theorem getVertex_of_tmod (k : Nat) (i : Int) (hi : Int.tmod i 6 = k) :
    (getVertex i : Option α × Option α)
      = ((vertices α)[2 * k]?, (vertices α)[2 * k + 1]?) := by
  have h0 : (0 : Int) ≤ (k : Int) * 2 := by positivity
  have h1 : (0 : Int) ≤ (k : Int) * 2 + 1 := by positivity
  have e0 : ((k : Int) * 2).toNat = 2 * k := by omega
  have e1 : ((k : Int) * 2 + 1).toNat = 2 * k + 1 := by omega
  simp only [getVertex, numPoints_eq, typedArrayGet, Nat.cast_ofNat, hi, h0, h1, e0, e1,
    if_true]

theorem jsDiv_of_ne (a : α) {b : α} (hb : b ≠ 0) : jsDiv a b = some (a / b) := by
  simp [jsDiv, hb]

theorem jsDiv_zero (a : α) : jsDiv a 0 = none := by
  simp [jsDiv]

theorem mapToViewport_of_ne (w h x y : α) {n : α} (hn : n ≠ 0) :
    mapToViewport w h x y n = (some ((x + n / 2) * w / n), some ((-y + n / 2) * h / n)) := by
  simp [mapToViewport, jsDiv_of_ne, hn]

theorem getVertex_zero :
    (getVertex 0 : Option α × Option α) = (some (-0.5), some (-0.5)) := by
  rw [@getVertex_of_tmod α _ 0 0 (by decide)]; simp [vertices]

theorem getVertex_one :
    (getVertex 1 : Option α × Option α) = (some 0.5, some (-0.5)) := by
  rw [@getVertex_of_tmod α _ 1 1 (by decide)]; simp [vertices]

theorem getVertex_two :
    (getVertex 2 : Option α × Option α) = (some 0.5, some 0.5) := by
  rw [@getVertex_of_tmod α _ 2 2 (by decide)]; simp [vertices]

theorem getVertex_five :
    (getVertex 5 : Option α × Option α) = (some (-0.5), some 0.5) := by
  rw [@getVertex_of_tmod α _ 5 5 (by decide)]; simp [vertices]

theorem five_ne_zero : (5 : α) ≠ 0 := by norm_num

/-! ## Lemmas on the frame renderer -/

/-- The outline of `draw`, call by call. -/
theorem drawOutline_eq (w h s : α) :
    drawOutline w h s =
      [Cmd.beginPath,
       Cmd.moveTo ((-0.5 * s + 5 / 2) * w / 5) ((-(-0.5 * s) + 5 / 2) * h / 5),
       Cmd.lineTo ((0.5 * s + 5 / 2) * w / 5) ((-(-0.5 * s) + 5 / 2) * h / 5),
       Cmd.lineTo ((0.5 * s + 5 / 2) * w / 5) ((-(0.5 * s) + 5 / 2) * h / 5),
       Cmd.lineTo ((-0.5 * s + 5 / 2) * w / 5) ((-(0.5 * s) + 5 / 2) * h / 5),
       Cmd.closePath] := by
  have hr : List.range 6 = [0, 1, 2, 3, 4, 5] := by decide
  simp [drawOutline, numPoints_eq, hr, drawVertex, getVertex_zero, getVertex_one,
    getVertex_two, getVertex_five, mapToViewport_of_ne, five_ne_zero]

theorem firstClosedPath_draw (host : Host α) (w h s : α) :
    firstClosedPath (draw host w h s) = drawOutline w h s := by
  rw [draw, drawOutline_eq]
  simp [firstClosedPath, throughClosePath]

theorem filledMarkers_draw (host : Host α) (w h s : α) :
    filledMarkers (draw host w h s)
      = [("green", (160, 160)), ("white", (240, 240)), ("blue", (240, 160)),
         ("red", (160, 240))] := by
  rw [draw, drawOutline_eq]
  simp [drawMarker, filledMarkers]

/-- Drawing a frame leaves the current transformation matrix as it is. -/
theorem execAll_draw (host : Host α) (w h s : α) (ctm : Affine α) :
    execAll host ctm (draw host w h s) = ctm := by
  rw [draw, drawOutline_eq]
  simp [execAll, drawMarker, Cmd.exec]

theorem firstTranslate_draw_append (host : Host α) (w h s : α) (rest : List (Cmd α)) :
    firstTranslate (draw host w h s ++ rest) = firstTranslate rest := by
  rw [draw, drawOutline_eq]
  simp [drawMarker, firstTranslate]

theorem outlinePoint_zero (w h s : α) :
    outlinePoint w h s 0
      = some ((-0.5 * s + 5 / 2) * w / 5, (-(-0.5 * s) + 5 / 2) * h / 5) := by
  simp [outlinePoint, getVertex_zero, mapToViewport_of_ne, five_ne_zero, mul_comm]

theorem outlinePoint_one (w h s : α) :
    outlinePoint w h s 1
      = some ((0.5 * s + 5 / 2) * w / 5, (-(-0.5 * s) + 5 / 2) * h / 5) := by
  simp [outlinePoint, getVertex_one, mapToViewport_of_ne, five_ne_zero, mul_comm]

theorem outlinePoint_two (w h s : α) :
    outlinePoint w h s 2
      = some ((0.5 * s + 5 / 2) * w / 5, (-(0.5 * s) + 5 / 2) * h / 5) := by
  simp [outlinePoint, getVertex_two, mapToViewport_of_ne, five_ne_zero, mul_comm]

theorem outlinePoint_five (w h s : α) :
    outlinePoint w h s 5
      = some ((-0.5 * s + 5 / 2) * w / 5, (-(0.5 * s) + 5 / 2) * h / 5) := by
  simp [outlinePoint, getVertex_five, mapToViewport_of_ne, five_ne_zero, mul_comm]

/-! ## The coordinate mapper in binary64 (C1, C7) -/

namespace Binary64


theorem rne_intCast (k : ℤ) : rne (k : ℚ) = k := by
  simp [rne]

theorem floor_le_rne (t : ℚ) : ⌊t⌋ ≤ rne t := by
  unfold rne; split_ifs <;> omega

theorem rne_le_floor_add_one (t : ℚ) : rne t ≤ ⌊t⌋ + 1 := by
  unfold rne; split_ifs <;> omega

theorem rne_mono {t u : ℚ} (h : t ≤ u) : rne t ≤ rne u := by
  rcases lt_or_eq_of_le (Int.floor_mono h) with hlt | heq
  · have h1 := rne_le_floor_add_one t
    have h2 := floor_le_rne u
    omega
  · unfold rne
    rw [← heq]
    split_ifs <;> first | omega | (exfalso; linarith)

theorem rne_nonneg {t : ℚ} (h : 0 ≤ t) : 0 ≤ rne t := by
  have := rne_mono h
  rwa [show ((0 : ℚ)) = ((0 : ℤ) : ℚ) by norm_num, rne_intCast] at this

theorem rne_eq_of_near {t : ℚ} {k : ℤ} (h : |t - k| < 1 / 2) : rne t = k := by
  rw [abs_lt] at h
  obtain ⟨h1, h2⟩ := h
  rcases le_or_lt (k : ℚ) t with hk | hk
  · have hf : ⌊t⌋ = k := by
      rw [Int.floor_eq_iff]; constructor <;> linarith
    unfold rne
    rw [hf, if_pos (by linarith)]
  · have hf : ⌊t⌋ = k - 1 := by
      rw [Int.floor_eq_iff]; push_cast; constructor <;> linarith
    unfold rne
    rw [hf]
    push_cast
    rw [if_neg (by linarith), if_pos (by linarith)]
    ring

theorem ulp_pos (m : ℚ) : 0 < ulp m := by
  unfold ulp; positivity

theorem round64_zero : round64 0 = 0 := by
  simp [round64, rne]

theorem round64_nonneg {m : ℚ} (h : 0 ≤ m) : 0 ≤ round64 m := by
  unfold round64
  have h1 : 0 ≤ rne (m / ulp m) := rne_nonneg (div_nonneg h (ulp_pos m).le)
  have h2 : (0 : ℚ) ≤ (rne (m / ulp m) : ℚ) := by exact_mod_cast h1
  exact mul_nonneg h2 (ulp_pos m).le

theorem expo_ge (m : ℚ) : -1022 ≤ expo m := le_max_right _ _

theorem expo_mono {a b : ℚ} (ha : 0 < a) (h : a ≤ b) : expo a ≤ expo b :=
  max_le_max (Int.log_mono_right ha h) le_rfl

theorem lt_two_zpow_expo_succ (m : ℚ) : m < (2 : ℚ) ^ (expo m + 1) := by
  have h1 : m < ((2 : ℕ) : ℚ) ^ (Int.log 2 m + 1) := Int.lt_zpow_succ_log_self (by norm_num) m
  have h2 : ((2 : ℕ) : ℚ) ^ (Int.log 2 m + 1) ≤ (2 : ℚ) ^ (expo m + 1) := by
    push_cast
    apply zpow_le_zpow_right₀ (by norm_num)
    have := le_max_left (Int.log 2 m) (-1022)
    unfold expo; omega
  exact lt_of_lt_of_le h1 h2

theorem expo_eq_of_bounds {m : ℚ} {e : ℤ} (he : -1022 ≤ e) (h1 : (2 : ℚ) ^ e ≤ m)
    (h2 : m < (2 : ℚ) ^ (e + 1)) : expo m = e := by
  have hm : 0 < m := lt_of_lt_of_le (by positivity) h1
  have hl : Int.log 2 m = e := by
    apply le_antisymm
    · have := (Int.lt_zpow_iff_log_lt (b := 2) (by norm_num) hm (x := e + 1)).1
        (by push_cast; exact h2)
      omega
    · exact (Int.zpow_le_iff_le_log (b := 2) (by norm_num) hm).1 (by push_cast; exact h1)
  unfold expo; rw [hl]; exact max_eq_left he

theorem expo_eq_of_small {m : ℚ} (h2 : m < (2 : ℚ) ^ (-1022 : ℤ)) (hm : 0 < m) :
    expo m = -1022 := by
  have := (Int.lt_zpow_iff_log_lt (b := 2) (by norm_num) hm (x := -1022)).1
    (by push_cast; exact h2)
  unfold expo; exact max_eq_right this.le


theorem two_zpow_expo_le {m : ℚ} (hm : 0 < m) (h : -1022 < expo m) : (2 : ℚ) ^ expo m ≤ m := by
  have hl : expo m = Int.log 2 m := by
    unfold expo at h ⊢
    rcases le_total (Int.log 2 m) (-1022) with h1 | h1
    · rw [max_eq_right h1] at h; omega
    · exact max_eq_left h1
  rw [hl]
  have := Int.zpow_log_le_self (b := 2) (by norm_num) hm
  push_cast at this
  exact this

theorem two_zpow_div_ulp (m : ℚ) (k : ℕ) :
    (2 : ℚ) ^ (expo m - 52 + (k : ℤ)) / ulp m = ((2 ^ k : ℕ) : ℤ) := by
  unfold ulp
  rw [zpow_add₀ (by norm_num : (2 : ℚ) ≠ 0)]
  have : (2 : ℚ) ^ (expo m - 52) ≠ 0 := by positivity
  field_simp

/-- round64 m ≤ 2^(expo m + 1) -/
theorem round64_le_binade (m : ℚ) : round64 m ≤ (2 : ℚ) ^ (expo m + 1) := by
  have h := (lt_two_zpow_expo_succ m).le
  have hu := ulp_pos m
  have h1 : m / ulp m ≤ (2 : ℚ) ^ (expo m + 1) / ulp m := div_le_div_of_nonneg_right h hu.le
  have e : (2 : ℚ) ^ (expo m + 1) / ulp m = ((2 ^ 53 : ℕ) : ℤ) := by
    have := two_zpow_div_ulp m 53
    rw [← this]; congr 2; push_cast; ring
  rw [e] at h1
  have h2 := rne_mono h1
  rw [rne_intCast] at h2
  have h3 : (rne (m / ulp m) : ℚ) ≤ (((2 ^ 53 : ℕ) : ℤ) : ℚ) := by exact_mod_cast h2
  unfold round64
  calc (rne (m / ulp m) : ℚ) * ulp m ≤ (((2 ^ 53 : ℕ) : ℤ) : ℚ) * ulp m :=
        mul_le_mul_of_nonneg_right h3 hu.le
    _ = (2 : ℚ) ^ (expo m + 1) := by
        rw [← e]; field_simp

theorem binade_le_round64 {m : ℚ} (hm : 0 < m) (h : -1022 < expo m) :
    (2 : ℚ) ^ expo m ≤ round64 m := by
  have hle := two_zpow_expo_le hm h
  have hu := ulp_pos m
  have h1 : (2 : ℚ) ^ expo m / ulp m ≤ m / ulp m := div_le_div_of_nonneg_right hle hu.le
  have e : (2 : ℚ) ^ expo m / ulp m = ((2 ^ 52 : ℕ) : ℤ) := by
    have := two_zpow_div_ulp m 52
    rw [← this]; congr 2; push_cast; ring
  rw [e] at h1
  have h2 := rne_mono h1
  rw [rne_intCast] at h2
  have h3 : (((2 ^ 52 : ℕ) : ℤ) : ℚ) ≤ (rne (m / ulp m) : ℚ) := by exact_mod_cast h2
  unfold round64
  calc (2 : ℚ) ^ expo m = (((2 ^ 52 : ℕ) : ℤ) : ℚ) * ulp m := by
        rw [← e]; field_simp
    _ ≤ (rne (m / ulp m) : ℚ) * ulp m := mul_le_mul_of_nonneg_right h3 hu.le

theorem round64_mono {a b : ℚ} (ha : 0 ≤ a) (h : a ≤ b) : round64 a ≤ round64 b := by
  rcases eq_or_lt_of_le ha with h0 | hpos
  · rw [← h0, round64_zero]; exact round64_nonneg (ha.trans h)
  · have hb : 0 < b := lt_of_lt_of_le hpos h
    rcases lt_or_eq_of_le (expo_mono hpos h) with hlt | heq
    · have h1 := round64_le_binade a
      have h2 := binade_le_round64 hb (lt_of_le_of_lt (expo_ge a) hlt)
      have h3 : (2 : ℚ) ^ (expo a + 1) ≤ (2 : ℚ) ^ expo b :=
        zpow_le_zpow_right₀ (by norm_num) (by omega)
      linarith
    · have hu : ulp a = ulp b := by unfold ulp; rw [heq]
      unfold round64
      rw [hu]
      have hub := ulp_pos b
      have h1 : a / ulp b ≤ b / ulp b := div_le_div_of_nonneg_right h hub.le
      have h2 := rne_mono h1
      have h3 : (rne (a / ulp b) : ℚ) ≤ (rne (b / ulp b) : ℚ) := by exact_mod_cast h2
      exact mul_le_mul_of_nonneg_right h3 hub.le

/-- Every `N * 2 ^ j` with `N < 2 ^ 53` and `j ≥ -1074` is left unchanged. -/
theorem round64_dyadic (N : ℕ) (j : ℤ) (hN : N < 2 ^ 53) (hj : -1074 ≤ j) :
    round64 ((N : ℚ) * (2 : ℚ) ^ j) = (N : ℚ) * (2 : ℚ) ^ j := by
  rcases Nat.eq_zero_or_pos N with h0 | hpos
  · subst h0; simp [round64_zero]
  · set m : ℚ := (N : ℚ) * (2 : ℚ) ^ j with hm
    have hmpos : 0 < m := by positivity
    have hd : expo m - 52 ≤ j := by
      by_contra hcon
      push_neg at hcon
      have hE : -1022 < expo m := by omega
      have h1 := two_zpow_expo_le hmpos hE
      have h2 : m < (2 : ℚ) ^ (53 : ℤ) * (2 : ℚ) ^ j := by
        rw [hm]
        apply mul_lt_mul_of_pos_right _ (by positivity)
        have : ((N : ℚ)) < ((2 ^ 53 : ℕ) : ℚ) := by exact_mod_cast hN
        rw [show ((2 : ℚ) ^ (53 : ℤ)) = ((2 ^ 53 : ℕ) : ℚ) by norm_num]
        exact this
      rw [← zpow_add₀ (by norm_num : (2 : ℚ) ≠ 0)] at h2
      have h3 : (2 : ℚ) ^ (53 + j) ≤ (2 : ℚ) ^ expo m :=
        zpow_le_zpow_right₀ (by norm_num) (by omega)
      linarith
    obtain ⟨d, hdn⟩ := Int.eq_ofNat_of_zero_le (sub_nonneg.2 hd)
    have hq : m / ulp m = ((N * 2 ^ d : ℕ) : ℤ) := by
      have hj2 : j = expo m - 52 + (d : ℤ) := by omega
      have := two_zpow_div_ulp m d
      rw [hm]
      rw [mul_div_assoc]
      nth_rewrite 1 [hj2]
      rw [this]
      push_cast
      ring
    unfold round64
    rw [hq, rne_intCast, ← hq]
    field_simp [(ulp_pos m).ne']

theorem round64_eq_of_near {m : ℚ} {e k : ℤ} (he : -1022 ≤ e) (h1 : (2 : ℚ) ^ e ≤ m)
    (h2 : m < (2 : ℚ) ^ (e + 1)) (hk : |m / (2 : ℚ) ^ (e - 52) - k| < 1 / 2) :
    round64 m = (k : ℚ) * (2 : ℚ) ^ (e - 52) := by
  unfold round64 ulp
  rw [expo_eq_of_bounds he h1 h2, rne_eq_of_near hk]


theorem ofMag_of_exact {m : ℚ} (s : Bool) (h1 : round64 m = m) (h2 : m < 2 ^ 1024) :
    ofMag s m = F64.fin s m := by
  unfold ofMag; rw [h1, if_pos h2]

theorem ofMag_of_le {m B : ℚ} (s : Bool) (h0 : 0 ≤ m) (h : m ≤ B) (hB : round64 B = B)
    (hB2 : B < 2 ^ 1024) :
    ofMag s m = F64.fin s (round64 m) ∧ 0 ≤ round64 m ∧ round64 m ≤ B := by
  have h1 : round64 m ≤ B := by
    have := round64_mono h0 h
    rwa [hB] at this
  refine ⟨?_, round64_nonneg h0, h1⟩
  unfold ofMag; rw [if_pos (lt_of_le_of_lt h1 hB2)]

theorem round64_natCast (N : ℕ) (hN : N < 2 ^ 53) : round64 (N : ℚ) = N := by
  have := round64_dyadic N 0 hN (by norm_num)
  simpa using this

theorem round64_two_zpow (k : ℤ) (hk : -1074 ≤ k) : round64 ((2 : ℚ) ^ k) = (2 : ℚ) ^ k := by
  have := round64_dyadic 1 k (by norm_num) hk
  simpa using this

theorem lit_natCast (N : ℕ) (hN : N < 2 ^ 53) : lit (N : ℚ) = F64.fin false N := by
  have h0 : ¬ ((N : ℚ) < 0) := not_lt.2 (Nat.cast_nonneg N)
  have h2 : (N : ℚ) < 2 ^ 1024 := by
    have : (N : ℚ) < ((2 ^ 53 : ℕ) : ℚ) := by exact_mod_cast hN
    refine lt_trans this ?_
    norm_num
  unfold lit
  rw [abs_of_nonneg (Nat.cast_nonneg N), decide_eq_false h0]
  exact ofMag_of_exact false (round64_natCast N hN) h2

theorem lit_two : lit 2 = F64.fin false 2 := by
  have := lit_natCast 2 (by norm_num)
  simpa using this

theorem sval_false (m : ℚ) : sval false m = m := rfl

theorem sval_true (m : ℚ) : sval true m = -m := rfl

theorem sval_not (s : Bool) (m : ℚ) : sval (!s) m = -sval s m := by
  cases s <;> simp [sval]

theorem div_two_of_exact {nm : ℚ} (s : Bool) (h1 : round64 (nm / 2) = nm / 2)
    (h2 : nm < 2 ^ 1024) :
    (F64.fin s nm).div (lit 2) = F64.fin s (nm / 2) := by
  rw [lit_two]
  simp only [F64.div, if_neg (by norm_num : ¬ ((2 : ℚ) = 0)), Bool.xor_false]
  exact ofMag_of_exact s h1 (by linarith)

/-- One coordinate of the mapper on the window, when `n / 2` and `n * c` are exact. -/
theorem coord_window {nm cm : ℚ} (hn : 0 < nm) (hnd : IsDouble nm) (hc : IsDouble cm)
    (hn2 : round64 (nm / 2) = nm / 2) (hnc : round64 (nm * cm) = nm * cm)
    (hnc2 : nm * cm < 2 ^ 1024) (s : Bool) (m : ℚ)
    (hlo : -(nm / 2) ≤ sval s m) (hhi : sval s m ≤ nm / 2) :
    ((((F64.fin s m).add ((F64.fin false nm).div (lit 2))).mul (F64.fin false cm)).div
        (F64.fin false nm))
      = F64.fin false (roundedCoord nm cm (sval s m))
    ∧ 0 ≤ roundedCoord nm cm (sval s m)
    ∧ roundedCoord nm cm (sval s m) ≤ cm := by
  unfold roundedCoord
  obtain ⟨hn0, hnr, hnlt⟩ := hnd
  obtain ⟨hc0, hcr, hclt⟩ := hc
  rw [div_two_of_exact false hn2 hnlt]
  have hv0 : 0 ≤ sval s m + nm / 2 := by linarith
  have hvn : sval s m + nm / 2 ≤ nm := by linarith
  obtain ⟨e1, h1a, h1b⟩ := ofMag_of_le false hv0 hvn hnr hnlt
  have hadd : (F64.fin s m).add (F64.fin false (nm / 2))
      = F64.fin false (round64 (sval s m + nm / 2)) := by
    simp only [F64.add, sval_false]
    by_cases hz : sval s m + nm / 2 = 0
    · rw [if_pos hz, hz, round64_zero]; simp
    · rw [if_neg hz, abs_of_nonneg hv0, decide_eq_false (not_lt.2 hv0)]
      exact e1
  rw [hadd]
  have hp0 : 0 ≤ round64 (sval s m + nm / 2) * cm := mul_nonneg h1a hc0
  have hpn : round64 (sval s m + nm / 2) * cm ≤ nm * cm :=
    mul_le_mul_of_nonneg_right h1b hc0
  obtain ⟨e2, h2a, h2b⟩ := ofMag_of_le false hp0 hpn hnc hnc2
  have hmul : (F64.fin false (round64 (sval s m + nm / 2))).mul (F64.fin false cm)
      = F64.fin false (round64 (round64 (sval s m + nm / 2) * cm)) := by
    simp only [F64.mul, Bool.xor_false]
    exact e2
  rw [hmul]
  have hq0 : 0 ≤ round64 (round64 (sval s m + nm / 2) * cm) / nm := div_nonneg h2a hn.le
  have hqn : round64 (round64 (sval s m + nm / 2) * cm) / nm ≤ cm := by
    rw [div_le_iff₀ hn]; linarith
  obtain ⟨e3, h3a, h3b⟩ := ofMag_of_le false hq0 hqn hcr hclt
  refine ⟨?_, h3a, h3b⟩
  simp only [F64.div, if_neg hn.ne', Bool.xor_false]
  exact e3


theorem roundedCoord_mono {nm cm : ℚ} (hn : 0 < nm) (hc : 0 ≤ cm) {a b : ℚ}
    (ha : -(nm / 2) ≤ a) (hab : a ≤ b) :
    roundedCoord nm cm a ≤ roundedCoord nm cm b := by
  unfold roundedCoord
  have h0 : 0 ≤ a + nm / 2 := by linarith
  have h1 : round64 (a + nm / 2) ≤ round64 (b + nm / 2) := round64_mono h0 (by linarith)
  have h1a : 0 ≤ round64 (a + nm / 2) := round64_nonneg h0
  have h2 : round64 (round64 (a + nm / 2) * cm) ≤ round64 (round64 (b + nm / 2) * cm) :=
    round64_mono (mul_nonneg h1a hc) (mul_le_mul_of_nonneg_right h1 hc)
  have h2a : 0 ≤ round64 (round64 (a + nm / 2) * cm) := round64_nonneg (mul_nonneg h1a hc)
  exact round64_mono (div_nonneg h2a hn.le) (div_le_div_of_nonneg_right h2 hn.le)

theorem roundedCoord_low {nm cm : ℚ} : roundedCoord nm cm (-(nm / 2)) = 0 := by
  unfold roundedCoord
  rw [neg_add_cancel, round64_zero, zero_mul, round64_zero, zero_div, round64_zero]

theorem roundedCoord_high {nm cm : ℚ} (hn : 0 < nm) (hnr : round64 nm = nm)
    (hcr : round64 cm = cm) (hnc : round64 (nm * cm) = nm * cm) :
    roundedCoord nm cm (nm / 2) = cm := by
  unfold roundedCoord
  rw [show nm / 2 + nm / 2 = nm by ring, hnr, hnc, mul_div_cancel_left₀ _ hn.ne', hcr]

theorem default_window_exact (W : ℕ) (hW : W < 2 ^ 50) :
    IsDouble 5 ∧ IsDouble (W : ℚ) ∧ round64 ((5 : ℚ) / 2) = 5 / 2
      ∧ round64 ((5 : ℚ) * W) = 5 * W ∧ (5 : ℚ) * W < 2 ^ 1024 := by
  have hW53 : W < 2 ^ 53 := lt_trans hW (by norm_num)
  have h5W : 5 * W < 2 ^ 53 := by omega
  have hlt : ∀ N : ℕ, N < 2 ^ 53 → (N : ℚ) < 2 ^ 1024 := by
    intro N hN
    have : (N : ℚ) < ((2 ^ 53 : ℕ) : ℚ) := by exact_mod_cast hN
    refine lt_trans this ?_
    norm_num
  refine ⟨⟨by norm_num, ?_, by norm_num⟩, ⟨Nat.cast_nonneg W, round64_natCast W hW53, hlt W hW53⟩,
    ?_, ?_, ?_⟩
  · have := round64_natCast 5 (by norm_num)
    simpa using this
  · have := round64_dyadic 5 (-1) (by norm_num) (by norm_num)
    norm_num at this ⊢
    exact this
  · have := round64_natCast (5 * W) h5W
    push_cast at this
    exact this
  · have := hlt (5 * W) h5W
    push_cast at this
    exact this


/-- C1, amended. For a window size `n > 0` and a canvas size `w, h` such that `n / 2`,
`n * w` and `n * h` are computed without rounding: `mapToViewport(x, y, n)` is
`((x + n/2)*w/n, (-y + n/2)*h/n)` evaluated in binary64; for a point of the square
`[-n/2, n/2] x [-n/2, n/2]` each coordinate is that formula with every operation
rounded, and the point lands in `[0, w] x [0, h]`; on the square the map is
non-decreasing in `x` and non-increasing in `y`; `x = -n/2` goes to `px = 0`,
`x = n/2` to `px = w`, `y = -n/2` to `py = h` and `y = n/2` to `py = 0`. The
condition holds for the default `n = 5` and every integer canvas size below
`2^50`. -/
theorem mapToViewport_rounded_window (nm wm hm : ℚ) (hn : 0 < nm) (hnd : IsDouble nm)
    (hwd : IsDouble wm) (hhd : IsDouble hm) (hn2 : round64 (nm / 2) = nm / 2)
    (hnw : round64 (nm * wm) = nm * wm) (hnw2 : nm * wm < 2 ^ 1024)
    (hnh : round64 (nm * hm) = nm * hm) (hnh2 : nm * hm < 2 ^ 1024) :
    (∀ x y : F64, mapToViewport (F64.fin false wm) (F64.fin false hm) x y (F64.fin false nm)
        = (((x.add ((F64.fin false nm).div (lit 2))).mul (F64.fin false wm)).div
            (F64.fin false nm),
           (((y.neg).add ((F64.fin false nm).div (lit 2))).mul (F64.fin false hm)).div
            (F64.fin false nm)))
    ∧ (∀ (sx sy : Bool) (xm ym : ℚ),
        -(nm / 2) ≤ sval sx xm → sval sx xm ≤ nm / 2 →
        -(nm / 2) ≤ sval sy ym → sval sy ym ≤ nm / 2 →
          mapToViewport (F64.fin false wm) (F64.fin false hm) (F64.fin sx xm) (F64.fin sy ym)
              (F64.fin false nm)
            = (F64.fin false (roundedCoord nm wm (sval sx xm)),
               F64.fin false (roundedCoord nm hm (-(sval sy ym))))
          ∧ 0 ≤ roundedCoord nm wm (sval sx xm) ∧ roundedCoord nm wm (sval sx xm) ≤ wm
          ∧ 0 ≤ roundedCoord nm hm (-(sval sy ym)) ∧ roundedCoord nm hm (-(sval sy ym)) ≤ hm)
    ∧ (∀ a b : ℚ, -(nm / 2) ≤ a → a ≤ b → b ≤ nm / 2 →
        roundedCoord nm wm a ≤ roundedCoord nm wm b
          ∧ roundedCoord nm hm (-b) ≤ roundedCoord nm hm (-a))
    ∧ (∀ y : F64, (mapToViewport (F64.fin false wm) (F64.fin false hm)
        (F64.fin true (nm / 2)) y (F64.fin false nm)).1 = F64.fin false 0)
    ∧ (∀ y : F64, (mapToViewport (F64.fin false wm) (F64.fin false hm)
        (F64.fin false (nm / 2)) y (F64.fin false nm)).1 = F64.fin false wm)
    ∧ (∀ x : F64, (mapToViewport (F64.fin false wm) (F64.fin false hm)
        x (F64.fin true (nm / 2)) (F64.fin false nm)).2 = F64.fin false hm)
    ∧ (∀ x : F64, (mapToViewport (F64.fin false wm) (F64.fin false hm)
        x (F64.fin false (nm / 2)) (F64.fin false nm)).2 = F64.fin false 0)
    ∧ (∀ W : ℕ, W < 2 ^ 50 →
        IsDouble 5 ∧ IsDouble (W : ℚ) ∧ round64 ((5 : ℚ) / 2) = 5 / 2
          ∧ round64 ((5 : ℚ) * W) = 5 * W ∧ (5 : ℚ) * W < 2 ^ 1024) := by
  have hn2pos : (0 : ℚ) ≤ nm / 2 := by linarith
  have cx := fun (s : Bool) (m : ℚ) => coord_window hn hnd hwd hn2 hnw hnw2 s m
  have cy := fun (s : Bool) (m : ℚ) => coord_window hn hnd hhd hn2 hnh hnh2 s m
  refine ⟨fun x y => rfl, ?_, ?_, ?_, ?_, ?_, ?_, default_window_exact⟩
  · intro sx sy xm ym hx1 hx2 hy1 hy2
    obtain ⟨ex, hx0, hxw⟩ := cx sx xm hx1 hx2
    obtain ⟨ey, hy0, hyh⟩ := cy (!sy) ym (by rw [sval_not]; linarith)
      (by rw [sval_not]; linarith)
    rw [sval_not] at ey hy0 hyh
    refine ⟨?_, hx0, hxw, hy0, hyh⟩
    unfold mapToViewport
    simp only [F64.neg]
    rw [ex, ey]
  · intro a b ha hab hb
    exact ⟨roundedCoord_mono hn hwd.1 ha hab,
      roundedCoord_mono hn hhd.1 (by linarith) (by linarith)⟩
  · intro y
    have := (cx true (nm / 2) (by rw [sval_true]) (by rw [sval_true]; linarith)).1
    rw [sval_true, roundedCoord_low] at this
    exact this
  · intro y
    have := (cx false (nm / 2) (by rw [sval_false]; linarith) (by rw [sval_false])).1
    rw [sval_false, roundedCoord_high hn hnd.2.1 hwd.2.1 hnw] at this
    exact this
  · intro x
    have := (cy false (nm / 2) (by rw [sval_false]; linarith) (by rw [sval_false])).1
    rw [sval_false, roundedCoord_high hn hnd.2.1 hhd.2.1 hnh] at this
    simp only [mapToViewport, F64.neg, Bool.not_true]
    exact this
  · intro x
    have := (cy true (nm / 2) (by rw [sval_true]) (by rw [sval_true]; linarith)).1
    rw [sval_true, roundedCoord_low] at this
    simp only [mapToViewport, F64.neg, Bool.not_false]
    exact this


theorem ofMag_eq_of_near (s : Bool) {m : ℚ} {e k : ℤ} (he : -1022 ≤ e)
    (h1 : (2 : ℚ) ^ e ≤ m) (h2 : m < (2 : ℚ) ^ (e + 1))
    (hk : |m / (2 : ℚ) ^ (e - 52) - k| < 1 / 2)
    (hlt : (k : ℚ) * (2 : ℚ) ^ (e - 52) < 2 ^ 1024) :
    ofMag s m = F64.fin s ((k : ℚ) * (2 : ℚ) ^ (e - 52)) := by
  unfold ofMag
  rw [round64_eq_of_near he h1 h2 hk, if_pos hlt]

theorem ofMag_dyadic (s : Bool) (N : ℕ) (j : ℤ) (hN : N < 2 ^ 53) (hj : -1074 ≤ j)
    (hlt : (N : ℚ) * (2 : ℚ) ^ j < 2 ^ 1024) :
    ofMag s ((N : ℚ) * (2 : ℚ) ^ j) = F64.fin s ((N : ℚ) * (2 : ℚ) ^ j) :=
  ofMag_of_exact s (round64_dyadic N j hN hj) hlt

theorem lit_seven_tenths :
    lit 0.7 = F64.fin false (3152519739159347 / 4503599627370496) := by
  unfold lit
  rw [decide_eq_false (by norm_num), abs_of_nonneg (by norm_num)]
  have := ofMag_eq_of_near false (m := 0.7) (e := -1) (k := 6305039478318694) (by norm_num)
    (by norm_num) (by norm_num) (by rw [abs_lt]; constructor <;> norm_num) (by norm_num)
  rw [this]
  norm_num

theorem seven_tenths_half :
    (lit 0.7).div (lit 2) = F64.fin false (3152519739159347 / 9007199254740992) := by
  rw [lit_seven_tenths, lit_two]
  simp only [F64.div, if_neg (by norm_num : ¬ ((2 : ℚ) = 0)), Bool.xor_false]
  have := ofMag_dyadic false 3152519739159347 (-53) (by norm_num) (by norm_num) (by norm_num)
  norm_num at this ⊢
  exact this


theorem lit_480 : lit 480 = F64.fin false 480 := by
  have := lit_natCast 480 (by norm_num)
  simpa using this

/-- The coordinate of the corner at `n = 0.7` on a canvas of size 480. -/
theorem seven_tenths_corner :
    (((F64.fin false (3152519739159347 / 9007199254740992)).add
        ((F64.fin false (3152519739159347 / 4503599627370496)).div (lit 2))).mul
        (F64.fin false 480)).div (F64.fin false (3152519739159347 / 4503599627370496))
      = F64.fin false (8444249301319681 / 17592186044416) := by
  have hhalf := seven_tenths_half
  rw [lit_seven_tenths] at hhalf
  rw [hhalf]
  have hadd : (F64.fin false (3152519739159347 / 9007199254740992)).add
      (F64.fin false (3152519739159347 / 9007199254740992))
        = F64.fin false (3152519739159347 / 4503599627370496) := by
    simp only [F64.add, sval_false]
    rw [if_neg (by norm_num), decide_eq_false (by norm_num), abs_of_nonneg (by norm_num)]
    have := ofMag_dyadic false 3152519739159347 (-52) (by norm_num) (by norm_num)
      (by norm_num)
    norm_num at this ⊢
    exact this
  rw [hadd]
  have hmul : (F64.fin false (3152519739159347 / 4503599627370496)).mul (F64.fin false 480)
      = F64.fin false (5910974510923776 / 17592186044416) := by
    simp only [F64.mul, Bool.xor_false]
    have := ofMag_eq_of_near false (m := 3152519739159347 / 4503599627370496 * 480) (e := 8)
      (k := 5910974510923776) (by norm_num) (by norm_num) (by norm_num)
      (by rw [abs_lt]; constructor <;> norm_num) (by norm_num)
    rw [this]
    norm_num
  rw [hmul]
  simp only [F64.div, if_neg (by norm_num : ¬ ((3152519739159347 / 4503599627370496 : ℚ) = 0)),
    Bool.xor_false]
  have := ofMag_eq_of_near false
    (m := 5910974510923776 / 17592186044416 / (3152519739159347 / 4503599627370496)) (e := 8)
    (k := 8444249301319681) (by norm_num) (by norm_num) (by norm_num)
    (by rw [abs_lt]; constructor <;> norm_num) (by norm_num)
  rw [this]
  norm_num

/-- The mapper of C1 for the default `n = 5` on a 320 x 320 canvas: the point
`(-0.5, -0.5)` of the square, and the corner `(n/2, -n/2)`, which goes to
`(w, h)`. -/
theorem mapToViewport_rounded_window_witness :
    ((0 : ℚ) < 5 ∧ -((5 : ℚ) / 2) ≤ sval true (1 / 2) ∧ sval true (1 / 2) ≤ (5 : ℚ) / 2)
      ∧ mapToViewport (F64.fin false 320) (F64.fin false 320) (F64.fin true (1 / 2))
          (F64.fin true (1 / 2)) (F64.fin false 5)
        = (F64.fin false (roundedCoord 5 320 (sval true (1 / 2))),
           F64.fin false (roundedCoord 5 320 (-(sval true (1 / 2)))))
      ∧ (mapToViewport (F64.fin false 320) (F64.fin false 320) (F64.fin false (5 / 2))
          (F64.fin true (5 / 2)) (F64.fin false 5)) = (F64.fin false 320, F64.fin false 320) := by
  have hd := default_window_exact 320 (by norm_num)
  norm_num at hd
  obtain ⟨h5, h320, h52, h1600⟩ := hd
  have hsq : -((5 : ℚ) / 2) ≤ sval true (1 / 2) ∧ sval true (1 / 2) ≤ (5 : ℚ) / 2 := by
    constructor <;> norm_num [sval]
  have key := mapToViewport_rounded_window 5 320 320 (by norm_num) h5 h320 h320 h52
    (by norm_num; exact h1600) (by norm_num) (by norm_num; exact h1600) (by norm_num)
  refine ⟨⟨by norm_num, hsq⟩, ?_, ?_⟩
  · exact (key.2.1 true true (1 / 2) (1 / 2) hsq.1 hsq.2 hsq.1 hsq.2).1
  · exact Prod.ext (key.2.2.2.2.1 _) (key.2.2.2.2.2.1 _)


theorem div_zero_not_finite (a : F64) (s : Bool) : (a.div (F64.fin s 0)).isFinite = false := by
  cases a with
  | nan => rfl
  | inf t => rfl
  | fin t m =>
    simp only [F64.div, if_true]
    split_ifs <;> rfl

theorem two_zpow_lt_overflow {k : ℤ} (hk : k ≤ 1023) : (2 : ℚ) ^ k < 2 ^ 1024 := by
  have h : (2 : ℚ) ^ k < (2 : ℚ) ^ ((1024 : ℕ) : ℤ) :=
    zpow_lt_zpow_right₀ (by norm_num) (by omega)
  rwa [zpow_natCast] at h

/-- A magnitude of at most `2 ^ k` rounds to a finite number of at most `2 ^ k`. -/
theorem ofMag_le_two_zpow (s : Bool) {m : ℚ} {k : ℤ} (h0 : 0 ≤ m) (h : m ≤ (2 : ℚ) ^ k)
    (hk1 : -1074 ≤ k) (hk2 : k ≤ 1023) :
    ofMag s m = F64.fin s (round64 m) ∧ 0 ≤ round64 m ∧ round64 m ≤ (2 : ℚ) ^ k :=
  ofMag_of_le s h0 h (round64_two_zpow k hk1) (two_zpow_lt_overflow hk2)

theorem abs_sval (s : Bool) (m : ℚ) : |sval s m| = |m| := by
  cases s <;> simp [sval]

/-- One coordinate of the mapper is a finite number when the magnitudes are moderate. -/
theorem coord_finite (sx sn sc : Bool) (xm nm cm : ℚ)
    (hx0 : 0 ≤ xm) (hx : xm ≤ 2 ^ 256) (hn1 : 1 / 2 ^ 256 ≤ nm) (hn : nm ≤ 2 ^ 256)
    (hc0 : 0 ≤ cm) (hc : cm ≤ 2 ^ 256) :
    ((((F64.fin sx xm).add ((F64.fin sn nm).div (lit 2))).mul (F64.fin sc cm)).div
      (F64.fin sn nm)).isFinite = true := by
  have hnpos : 0 < nm := lt_of_lt_of_le (by positivity) hn1
  -- n / 2
  have e0 : (F64.fin sn nm).div (lit 2) = F64.fin sn (round64 (nm / 2))
      ∧ 0 ≤ round64 (nm / 2) ∧ round64 (nm / 2) ≤ (2 : ℚ) ^ (255 : ℤ) := by
    rw [lit_two]
    simp only [F64.div, if_neg (by norm_num : ¬ ((2 : ℚ) = 0)), Bool.xor_false]
    exact ofMag_le_two_zpow sn (by linarith) (by norm_num; linarith) (by norm_num)
      (by norm_num)
  obtain ⟨e0, h0a, h0b⟩ := e0
  rw [e0]
  -- x + n / 2
  obtain ⟨s1, r1, e1, h1a, h1b⟩ : ∃ s1 r1, (F64.fin sx xm).add (F64.fin sn (round64 (nm / 2)))
      = F64.fin s1 r1 ∧ 0 ≤ r1 ∧ r1 ≤ (2 : ℚ) ^ (257 : ℤ) := by
    simp only [F64.add]
    by_cases hz : sval sx xm + sval sn (round64 (nm / 2)) = 0
    · rw [if_pos hz]
      exact ⟨_, _, rfl, le_rfl, by positivity⟩
    · rw [if_neg hz]
      have hb : |sval sx xm + sval sn (round64 (nm / 2))| ≤ (2 : ℚ) ^ (257 : ℤ) := by
        refine (abs_add _ _).trans ?_
        rw [abs_sval, abs_sval, abs_of_nonneg hx0, abs_of_nonneg h0a]
        norm_num at h0b ⊢
        linarith
      obtain ⟨e, ha, hb2⟩ := ofMag_le_two_zpow
        (decide (sval sx xm + sval sn (round64 (nm / 2)) < 0)) (abs_nonneg _) hb (by norm_num)
        (by norm_num)
      exact ⟨_, _, e, ha, hb2⟩
  rw [e1]
  -- (...) * c
  have hp : r1 * cm ≤ (2 : ℚ) ^ (513 : ℤ) := by
    have : r1 * cm ≤ (2 : ℚ) ^ (257 : ℤ) * 2 ^ 256 := mul_le_mul h1b hc hc0 (by positivity)
    refine this.trans (le_of_eq ?_)
    norm_num
  obtain ⟨e2, h2a, h2b⟩ := ofMag_le_two_zpow (xor s1 sc) (mul_nonneg h1a hc0) hp (by norm_num)
    (by norm_num)
  have hmul : (F64.fin s1 r1).mul (F64.fin sc cm) = F64.fin (xor s1 sc) (round64 (r1 * cm)) := by
    simp only [F64.mul]; exact e2
  rw [hmul]
  -- (...) / n
  have hq : round64 (r1 * cm) / nm ≤ (2 : ℚ) ^ (769 : ℤ) := by
    rw [div_le_iff₀ hnpos]
    have h3 : (2 : ℚ) ^ (513 : ℤ) = (2 : ℚ) ^ (769 : ℤ) * (1 / 2 ^ 256) := by norm_num
    calc round64 (r1 * cm) ≤ (2 : ℚ) ^ (513 : ℤ) := h2b
      _ = (2 : ℚ) ^ (769 : ℤ) * (1 / 2 ^ 256) := h3
      _ ≤ (2 : ℚ) ^ (769 : ℤ) * nm := mul_le_mul_of_nonneg_left hn1 (by positivity)
  obtain ⟨e3, -, -⟩ := ofMag_le_two_zpow (xor (xor s1 sc) sn) (div_nonneg h2a hnpos.le) hq
    (by norm_num) (by norm_num)
  simp only [F64.div, if_neg hnpos.ne']
  rw [e3]; rfl


theorem lit_zero : lit 0 = F64.fin false 0 := by
  have := lit_natCast 0 (by norm_num)
  simpa using this

theorem lit_one : lit 1 = F64.fin false 1 := by
  have := lit_natCast 1 (by norm_num)
  simpa using this

theorem lit_five : lit 5 = F64.fin false 5 := by
  have := lit_natCast 5 (by norm_num)
  simpa using this

theorem lit_320 : lit 320 = F64.fin false 320 := by
  have := lit_natCast 320 (by norm_num)
  simpa using this

/-- C7, as stated, fails at `n = 0`: on a 320 x 320 canvas `mapToViewport(1, 1, 0)`
is `[Infinity, -Infinity]`. A divisor other than zero is not enough either:
`mapToViewport(2^1023, 0, 5)` is `[Infinity, 160]`, the product by `w`
overflowing. -/
theorem mapToViewport_not_finite_counterexample :
    mapToViewport (lit 320) (lit 320) (lit 1) (lit 1) (lit 0)
        = (F64.inf false, F64.inf true)
      ∧ mapToViewport (lit 320) (lit 320) (F64.fin false (2 ^ 1023)) (lit 0) (lit 5)
        = (F64.inf false, F64.fin false 160) := by
  constructor
  · rw [lit_320, lit_one, lit_zero]
    simp only [mapToViewport, F64.neg, Bool.not_false]
    have hhalf : (F64.fin false 0).div (lit 2) = F64.fin false 0 := by
      have := @div_two_of_exact 0 false (by norm_num [round64_zero]) (by norm_num)
      simpa using this
    rw [hhalf]
    have h1 : ofMag false 1 = F64.fin false 1 := by
      have := ofMag_dyadic false 1 0 (by norm_num) (by norm_num) (by norm_num)
      simpa using this
    have h1n : ofMag true 1 = F64.fin true 1 := by
      have := ofMag_dyadic true 1 0 (by norm_num) (by norm_num) (by norm_num)
      simpa using this
    have h320 : ofMag false 320 = F64.fin false 320 := by
      have := ofMag_dyadic false 320 0 (by norm_num) (by norm_num) (by norm_num)
      simpa using this
    have h320n : ofMag true 320 = F64.fin true 320 := by
      have := ofMag_dyadic true 320 0 (by norm_num) (by norm_num) (by norm_num)
      simpa using this
    have ex : (((F64.fin false 1).add (F64.fin false 0)).mul (F64.fin false 320)).div
        (F64.fin false 0) = F64.inf false := by
      have ha : (F64.fin false 1).add (F64.fin false 0) = F64.fin false 1 := by
        simp only [F64.add, sval_false]
        rw [if_neg (by norm_num), decide_eq_false (by norm_num)]
        norm_num
        exact h1
      rw [ha]
      have hm : (F64.fin false 1).mul (F64.fin false 320) = F64.fin false 320 := by
        simp only [F64.mul, Bool.xor_false]; norm_num; exact h320
      rw [hm]
      simp [F64.div]
    have ey : (((F64.fin true 1).add (F64.fin false 0)).mul (F64.fin false 320)).div
        (F64.fin false 0) = F64.inf true := by
      have ha : (F64.fin true 1).add (F64.fin false 0) = F64.fin true 1 := by
        simp only [F64.add, sval_false, sval_true]
        rw [if_neg (by norm_num), decide_eq_true (by norm_num)]
        norm_num
        exact h1n
      rw [ha]
      have hm : (F64.fin true 1).mul (F64.fin false 320) = F64.fin true 320 := by
        simp only [F64.mul, Bool.xor_false]; norm_num; exact h320n
      rw [hm]
      simp [F64.div]
    rw [ex, ey]
  · rw [lit_320, lit_five, lit_zero]
    simp only [mapToViewport, F64.neg, Bool.not_false]
    have hhalf : (F64.fin false 5).div (lit 2) = F64.fin false (5 / 2) := by
      refine div_two_of_exact false ?_ (by norm_num)
      have := round64_dyadic 5 (-1) (by norm_num) (by norm_num)
      norm_num at this ⊢
      exact this
    rw [hhalf]
    have ex : (((F64.fin false (2 ^ 1023)).add (F64.fin false (5 / 2))).mul
        (F64.fin false 320)).div (F64.fin false 5) = F64.inf false := by
      have ha : (F64.fin false (2 ^ 1023)).add (F64.fin false (5 / 2))
          = F64.fin false (2 ^ 1023) := by
        simp only [F64.add, sval_false]
        rw [if_neg (by norm_num), decide_eq_false (by norm_num), abs_of_nonneg (by norm_num)]
        have := ofMag_eq_of_near false (m := 2 ^ 1023 + 5 / 2) (e := 1023)
          (k := 4503599627370496) (by norm_num) (by norm_num) (by norm_num)
          (by rw [abs_lt]; constructor <;> norm_num) (by norm_num)
        rw [this]
        norm_num
      rw [ha]
      have hm : (F64.fin false (2 ^ 1023)).mul (F64.fin false 320) = F64.inf false := by
        simp only [F64.mul, Bool.xor_false]
        have hr := round64_dyadic 5 1029 (by norm_num) (by norm_num)
        have he : ((5 : ℕ) : ℚ) * (2 : ℚ) ^ (1029 : ℤ) = 2 ^ 1023 * 320 := by norm_num
        rw [he] at hr
        unfold ofMag
        rw [hr, if_neg (by norm_num)]
      rw [hm]
      rfl
    have ey : (((F64.fin true 0).add (F64.fin false (5 / 2))).mul (F64.fin false 320)).div
        (F64.fin false 5) = F64.fin false 160 := by
      have ha : (F64.fin true 0).add (F64.fin false (5 / 2)) = F64.fin false (5 / 2) := by
        simp only [F64.add, sval_false, sval_true]
        rw [if_neg (by norm_num), decide_eq_false (by norm_num), abs_of_nonneg (by norm_num)]
        have := ofMag_dyadic false 5 (-1) (by norm_num) (by norm_num) (by norm_num)
        norm_num at this ⊢
        exact this
      rw [ha]
      have hm : (F64.fin false (5 / 2)).mul (F64.fin false 320) = F64.fin false 800 := by
        simp only [F64.mul, Bool.xor_false]
        have := ofMag_dyadic false 800 0 (by norm_num) (by norm_num) (by norm_num)
        norm_num at this ⊢
        exact this
      rw [hm]
      simp only [F64.div, if_neg (by norm_num : ¬ ((5 : ℚ) = 0)), Bool.xor_false]
      have := ofMag_dyadic false 160 0 (by norm_num) (by norm_num) (by norm_num)
      norm_num at this ⊢
      exact this
    rw [ex, ey]

/-- C7, amended. `mapToViewport` has no error condition, and for finite `x`, `y`,
`n`, `w`, `h` with `2^-256 ≤ |n| ≤ 2^256` and `|x|, |y|, w, h ≤ 2^256` it returns a
pair of finite numbers; for `n = 0` (of either sign) the division by `n` has a zero
divisor and neither component is a finite number, whatever the other
arguments. -/
theorem mapToViewport_finite_of_moderate (sx sy sn : Bool) (xm ym nm wm hm : ℚ)
    (hx0 : 0 ≤ xm) (hx : xm ≤ 2 ^ 256) (hy0 : 0 ≤ ym) (hy : ym ≤ 2 ^ 256)
    (hn1 : 1 / 2 ^ 256 ≤ nm) (hn : nm ≤ 2 ^ 256)
    (hw0 : 0 ≤ wm) (hw : wm ≤ 2 ^ 256) (hh0 : 0 ≤ hm) (hh : hm ≤ 2 ^ 256) :
    ((mapToViewport (F64.fin false wm) (F64.fin false hm) (F64.fin sx xm) (F64.fin sy ym)
        (F64.fin sn nm)).1.isFinite = true
      ∧ (mapToViewport (F64.fin false wm) (F64.fin false hm) (F64.fin sx xm) (F64.fin sy ym)
        (F64.fin sn nm)).2.isFinite = true)
    ∧ (∀ (w h x y : F64) (s : Bool),
        (mapToViewport w h x y (F64.fin s 0)).1.isFinite = false
          ∧ (mapToViewport w h x y (F64.fin s 0)).2.isFinite = false) := by
  refine ⟨⟨?_, ?_⟩, fun w h x y s => ⟨div_zero_not_finite _ s, div_zero_not_finite _ s⟩⟩
  · exact coord_finite sx sn false xm nm wm hx0 hx hn1 hn hw0 hw
  · exact coord_finite (!sy) sn false ym nm hm hy0 hy hn1 hn hh0 hh

/-- The mapper of C7 at the default `n = 5`, the point `(-0.5, 0.5)` and a
320 x 320 canvas: both coordinates are finite numbers. -/
theorem mapToViewport_finite_of_moderate_witness :
    ((0 : ℚ) ≤ 1 / 2 ∧ (1 : ℚ) / 2 ≤ 2 ^ 256 ∧ (1 : ℚ) / 2 ^ 256 ≤ 5 ∧ (5 : ℚ) ≤ 2 ^ 256
        ∧ (0 : ℚ) ≤ 320 ∧ (320 : ℚ) ≤ 2 ^ 256)
      ∧ (mapToViewport (F64.fin false 320) (F64.fin false 320) (F64.fin true (1 / 2))
          (F64.fin false (1 / 2)) (F64.fin false 5)).1.isFinite = true
      ∧ (mapToViewport (F64.fin false 320) (F64.fin false 320) (F64.fin true (1 / 2))
          (F64.fin false (1 / 2)) (F64.fin false 5)).2.isFinite = true :=
  ⟨⟨by norm_num, by norm_num, by norm_num, by norm_num, by norm_num, by norm_num⟩,
    (mapToViewport_finite_of_moderate true false false (1 / 2) (1 / 2) 5 320 320 (by norm_num)
      (by norm_num) (by norm_num) (by norm_num) (by norm_num) (by norm_num) (by norm_num)
      (by norm_num) (by norm_num) (by norm_num)).1⟩


theorem sval_abs_of_represents {s : Bool} {m q : ℚ} (h0 : 0 ≤ m) (h : sval s m = q) :
    |q| = m := by
  rw [← h, abs_sval, abs_of_nonneg h0]

theorem sval_decide_abs (v : ℚ) : sval (decide (v < 0)) |v| = v := by
  by_cases h : v < 0
  · rw [decide_eq_true h, sval_true, abs_of_neg h, neg_neg]
  · rw [decide_eq_false h, sval_false, abs_of_nonneg (not_lt.1 h)]

theorem sval_xor_mul (s t : Bool) (a b : ℚ) : sval (xor s t) (a * b) = sval s a * sval t b := by
  cases s <;> cases t <;> simp [sval]

theorem sval_xor_div (s t : Bool) (a b : ℚ) : sval (xor s t) (a / b) = sval s a / sval t b := by
  cases s <;> cases t <;> simp [sval, neg_div, div_neg]

theorem represents_add {x y : F64} {a b : ℚ} (hx : x.Represents a) (hy : y.Represents b)
    (h : Exact (a + b)) : (x.add y).Represents (a + b) := by
  obtain ⟨s, m, rfl, hm, rfl⟩ := hx
  obtain ⟨t, k, rfl, hk, rfl⟩ := hy
  simp only [F64.add]
  by_cases hz : sval s m + sval t k = 0
  · rw [if_pos hz, hz]
    exact ⟨_, _, rfl, le_rfl, by cases (s && t) <;> simp [sval]⟩
  · rw [if_neg hz, ofMag_of_exact _ h.1 h.2]
    exact ⟨_, _, rfl, abs_nonneg _, sval_decide_abs _⟩

theorem represents_mul {x y : F64} {a b : ℚ} (hx : x.Represents a) (hy : y.Represents b)
    (h : Exact (a * b)) : (x.mul y).Represents (a * b) := by
  obtain ⟨s, m, rfl, hm, rfl⟩ := hx
  obtain ⟨t, k, rfl, hk, rfl⟩ := hy
  have e : |sval s m * sval t k| = m * k := by
    rw [abs_mul, abs_sval, abs_sval, abs_of_nonneg hm, abs_of_nonneg hk]
  rw [Exact, e] at h
  simp only [F64.mul]
  rw [ofMag_of_exact _ h.1 h.2]
  exact ⟨_, _, rfl, mul_nonneg hm hk, sval_xor_mul s t m k⟩

theorem represents_div {x y : F64} {a b : ℚ} (hx : x.Represents a) (hy : y.Represents b)
    (hb : b ≠ 0) (h : Exact (a / b)) : (x.div y).Represents (a / b) := by
  obtain ⟨s, m, rfl, hm, rfl⟩ := hx
  obtain ⟨t, k, rfl, hk, rfl⟩ := hy
  have hk0 : k ≠ 0 := by
    rintro rfl
    apply hb
    cases t <;> simp [sval]
  have e : |sval s m / sval t k| = m / k := by
    rw [abs_div, abs_sval, abs_sval, abs_of_nonneg hm, abs_of_nonneg hk]
  rw [Exact, e] at h
  simp only [F64.div, if_neg hk0]
  rw [ofMag_of_exact _ h.1 h.2]
  exact ⟨_, _, rfl, div_nonneg hm hk, sval_xor_div s t m k⟩

theorem represents_neg {x : F64} {a : ℚ} (hx : x.Represents a) : (x.neg).Represents (-a) := by
  obtain ⟨s, m, rfl, hm, rfl⟩ := hx
  exact ⟨!s, m, rfl, hm, sval_not s m⟩

theorem represents_lit_two : (lit 2).Represents 2 :=
  ⟨false, 2, lit_two, by norm_num, rfl⟩

/-- The exact mapper `Treco.mapToViewport` is the binary64 mapper wherever no
operation rounds: when `n ≠ 0` and `n / 2`, the two sums, the two products and the
two quotients are binary64 numbers, the binary64 result is the exact one. -/
theorem mapToViewport_refines_exact {W H X Y N : F64} {w h x y n : ℚ}
    (hW : W.Represents w) (hH : H.Represents h) (hX : X.Represents x) (hY : Y.Represents y)
    (hN : N.Represents n) (hn : n ≠ 0) (e0 : Exact (n / 2))
    (ex1 : Exact (x + n / 2)) (ex2 : Exact ((x + n / 2) * w))
    (ex3 : Exact ((x + n / 2) * w / n))
    (ey1 : Exact (-y + n / 2)) (ey2 : Exact ((-y + n / 2) * h))
    (ey3 : Exact ((-y + n / 2) * h / n)) :
    Treco.mapToViewport w h x y n = (some ((x + n / 2) * w / n), some ((-y + n / 2) * h / n))
      ∧ (mapToViewport W H X Y N).1.Represents ((x + n / 2) * w / n)
      ∧ (mapToViewport W H X Y N).2.Represents ((-y + n / 2) * h / n) := by
  have hhalf := represents_div hN represents_lit_two (by norm_num) e0
  refine ⟨by simp [Treco.mapToViewport, jsDiv, hn], ?_, ?_⟩
  · exact represents_div (represents_mul (represents_add hX hhalf ex1) hW ex2) hN hn ex3
  · exact represents_div
      (represents_mul (represents_add (represents_neg hY) hhalf ey1) hH ey2) hN hn ey3


theorem rne_half : rne (1 / 2) = 0 := by
  have hf : ⌊(1 / 2 : ℚ)⌋ = 0 := by
    rw [Int.floor_eq_iff]; constructor <;> norm_num
  unfold rne
  rw [hf]
  norm_num

theorem round64_half_min : round64 (1 / 2 ^ 1075) = 0 := by
  have he : expo (1 / 2 ^ 1075) = -1022 :=
    expo_eq_of_small (by norm_num) (by norm_num)
  have hq : (1 / 2 ^ 1075 : ℚ) / (2 : ℚ) ^ (-1022 - 52 : ℤ) = 1 / 2 := by norm_num
  unfold round64 ulp
  rw [he, hq, rne_half]
  simp

theorem min_window_half :
    (F64.fin false (1 / 2 ^ 1074)).div (lit 2) = F64.fin false 0 := by
  rw [lit_two]
  simp only [F64.div, if_neg (by norm_num : ¬ ((2 : ℚ) = 0)), Bool.xor_false]
  unfold ofMag
  rw [show (1 / 2 ^ 1074 : ℚ) / 2 = 1 / 2 ^ 1075 by norm_num, round64_half_min,
    if_pos (by norm_num)]

theorem min_window_centre :
    mapToViewport (F64.fin false 320) (F64.fin false 320) (F64.fin false 0) (F64.fin false 0)
        (F64.fin false (1 / 2 ^ 1074))
      = (F64.fin false 0, F64.fin false 0) := by
  have hz : ofMag false 0 = F64.fin false 0 :=
    ofMag_of_exact false round64_zero (by norm_num)
  have hadd : (F64.fin false 0).add (F64.fin false 0) = F64.fin false 0 := by
    simp [F64.add, sval]
  have hadd2 : (F64.fin true 0).add (F64.fin false 0) = F64.fin false 0 := by
    simp [F64.add, sval]
  have hmul : (F64.fin false 0).mul (F64.fin false 320) = F64.fin false 0 := by
    simp only [F64.mul, zero_mul, Bool.xor_false]
    exact hz
  have hdiv : (F64.fin false 0).div (F64.fin false (1 / 2 ^ 1074)) = F64.fin false 0 := by
    simp only [F64.div, if_neg (by norm_num : ¬ ((1 / 2 ^ 1074 : ℚ) = 0)), zero_div,
      Bool.xor_false]
    exact hz
  simp only [mapToViewport, F64.neg, Bool.not_false]
  rw [min_window_half, hadd, hadd2, hmul, hdiv]

/-- C1, as stated, fails at `n = 0.7` on a 480 x 480 canvas: the corner
`(n/2, -n/2) = (0.35, -0.35)` of the logical square goes to
`(480 + 2^-44, 480 + 2^-44)`, so `x = n/2` does not go to `px = w`, `y = -n/2` does
not go to `py = h`, and the point lands outside `[0, w] x [0, h]`. The product
`n * 480` is rounded up and the quotient by `n` is then above 480. It fails also
at the smallest window size `n = 2^-1074` on a 320 x 320 canvas, where `n / 2`
rounds to 0 and `x = n/2 = 0` goes to `px = 0`, not to `px = w`. -/
theorem mapToViewport_corner_counterexample :
    lit 0.7 = F64.fin false (3152519739159347 / 4503599627370496)
      ∧ (lit 0.7).div (lit 2) = F64.fin false (3152519739159347 / 9007199254740992)
      ∧ mapToViewport (lit 480) (lit 480) ((lit 0.7).div (lit 2))
          (((lit 0.7).div (lit 2)).neg) (lit 0.7)
        = (F64.fin false (480 + 1 / 2 ^ 44), F64.fin false (480 + 1 / 2 ^ 44))
      ∧ (480 : ℚ) < 480 + 1 / 2 ^ 44
      ∧ (F64.fin false (1 / 2 ^ 1074)).div (lit 2) = F64.fin false 0
      ∧ mapToViewport (F64.fin false 320) (F64.fin false 320) (F64.fin false 0)
          (F64.fin false 0) (F64.fin false (1 / 2 ^ 1074))
        = (F64.fin false 0, F64.fin false 0) := by
  refine ⟨lit_seven_tenths, seven_tenths_half, ?_, by norm_num, min_window_half,
    min_window_centre⟩
  rw [seven_tenths_half, lit_seven_tenths, lit_480]
  simp only [mapToViewport, F64.neg, Bool.not_true, Bool.not_false]
  rw [seven_tenths_corner]
  norm_num

/-- A rational that is half an integer below `2 ^ 52` in magnitude is a binary64
number. -/
theorem exact_half (q : ℚ) (k : ℤ) (h : q = k / 2) (hk : |k| < 2 ^ 52) : Exact q := by
  have hN : k.natAbs < 2 ^ 53 := by
    have : (k.natAbs : ℤ) < 2 ^ 52 := by rwa [Int.natCast_natAbs]
    have h2 : k.natAbs < 2 ^ 52 := by exact_mod_cast this
    exact lt_trans h2 (by norm_num)
  have e : |q| = (k.natAbs : ℚ) * (2 : ℚ) ^ (-1 : ℤ) := by
    rw [h, abs_div, abs_of_pos (by norm_num : (0 : ℚ) < 2), Nat.cast_natAbs, Int.cast_abs]
    norm_num
    ring
  have hr := round64_dyadic k.natAbs (-1) hN (by norm_num)
  rw [← e] at hr
  refine ⟨hr, ?_⟩
  rw [e]
  have : (k.natAbs : ℚ) < ((2 ^ 53 : ℕ) : ℚ) := by exact_mod_cast hN
  have h3 : (k.natAbs : ℚ) * (2 : ℚ) ^ (-1 : ℤ) ≤ (k.natAbs : ℚ) := by
    have h0 : (0 : ℚ) ≤ (k.natAbs : ℚ) := Nat.cast_nonneg _
    norm_num
    linarith
  refine lt_of_le_of_lt h3 (lt_trans this ?_)
  norm_num


theorem abs_scaled_lt (t : ℤ) (V : ℕ) (c : ℤ) (ht0 : 0 ≤ t) (ht : t ≤ 10) (hV : V < 2 ^ 30)
    (hc : |c| ≤ 1029) : |t * V * c| < 2 ^ 52 := by
  have hV0 : (0 : ℤ) ≤ (V : ℤ) := Int.natCast_nonneg V
  have hVle : (V : ℤ) ≤ 2 ^ 30 := by exact_mod_cast hV.le
  have h1 : t * V ≤ 10 * 2 ^ 30 := mul_le_mul ht hVle hV0 (by norm_num)
  have h2 : 0 ≤ t * V := mul_nonneg ht0 hV0
  rw [abs_mul, abs_of_nonneg h2]
  calc t * V * |c| ≤ 10 * 2 ^ 30 * 1029 := mul_le_mul h1 hc (abs_nonneg c) (by norm_num)
    _ < 2 ^ 52 := by norm_num

/-- On a canvas whose sizes are multiples of 10 (as 320, 400, 480), with the
default `n = 5`, no operation of the mapper rounds at a point whose coordinates
are halves of integers of magnitude at most 1024: there the binary64 mapper
returns the exact values `(w/10 * (2x + 5), h/10 * (5 - 2y))` of
`Treco.mapToViewport`. -/
theorem mapToViewport_exact_on_canvas (V U : ℕ) (a b : ℤ) (hV : V < 2 ^ 30) (hU : U < 2 ^ 30)
    (ha : |a| ≤ 1024) (hb : |b| ≤ 1024) {X Y : F64}
    (hX : X.Represents ((a : ℚ) / 2)) (hY : Y.Represents ((b : ℚ) / 2)) :
    Treco.mapToViewport ((10 : ℚ) * V) ((10 : ℚ) * U) ((a : ℚ) / 2) ((b : ℚ) / 2) 5
        = (some ((V : ℚ) * (a + 5)), some ((U : ℚ) * (5 - b)))
      ∧ (mapToViewport (F64.fin false ((10 : ℚ) * V)) (F64.fin false ((10 : ℚ) * U)) X Y
          (F64.fin false 5)).1.Represents ((V : ℚ) * (a + 5))
      ∧ (mapToViewport (F64.fin false ((10 : ℚ) * V)) (F64.fin false ((10 : ℚ) * U)) X Y
          (F64.fin false 5)).2.Represents ((U : ℚ) * (5 - b)) := by
  have ha5 : |a + 5| ≤ 1029 := (abs_add a 5).trans (by norm_num; linarith)
  have hb5 : |5 - b| ≤ 1029 := by
    rw [abs_sub_comm]
    exact (abs_sub b 5).trans (by norm_num; linarith)
  have hW : (F64.fin false ((10 : ℚ) * V)).Represents ((10 : ℚ) * V) :=
    ⟨false, _, rfl, by positivity, rfl⟩
  have hH : (F64.fin false ((10 : ℚ) * U)).Represents ((10 : ℚ) * U) :=
    ⟨false, _, rfl, by positivity, rfl⟩
  have hN : (F64.fin false 5).Represents 5 := ⟨false, 5, rfl, by norm_num, rfl⟩
  have e0 : Exact ((5 : ℚ) / 2) := exact_half _ 5 (by norm_num) (by norm_num)
  have ex1 : Exact ((a : ℚ) / 2 + 5 / 2) :=
    exact_half _ (a + 5) (by push_cast; ring) (lt_of_le_of_lt ha5 (by norm_num))
  have ex2 : Exact (((a : ℚ) / 2 + 5 / 2) * ((10 : ℚ) * V)) :=
    exact_half _ (10 * V * (a + 5)) (by push_cast; ring)
      (abs_scaled_lt 10 V (a + 5) (by norm_num) le_rfl hV ha5)
  have ex3 : Exact (((a : ℚ) / 2 + 5 / 2) * ((10 : ℚ) * V) / 5) :=
    exact_half _ (2 * V * (a + 5)) (by push_cast; ring)
      (abs_scaled_lt 2 V (a + 5) (by norm_num) (by norm_num) hV ha5)
  have ey1 : Exact (-((b : ℚ) / 2) + 5 / 2) :=
    exact_half _ (5 - b) (by push_cast; ring) (lt_of_le_of_lt hb5 (by norm_num))
  have ey2 : Exact ((-((b : ℚ) / 2) + 5 / 2) * ((10 : ℚ) * U)) :=
    exact_half _ (10 * U * (5 - b)) (by push_cast; ring)
      (abs_scaled_lt 10 U (5 - b) (by norm_num) le_rfl hU hb5)
  have ey3 : Exact ((-((b : ℚ) / 2) + 5 / 2) * ((10 : ℚ) * U) / 5) :=
    exact_half _ (2 * U * (5 - b)) (by push_cast; ring)
      (abs_scaled_lt 2 U (5 - b) (by norm_num) (by norm_num) hU hb5)
  have key := mapToViewport_refines_exact hW hH hX hY hN (by norm_num) e0 ex1 ex2 ex3 ey1 ey2 ey3
  have vx : ((a : ℚ) / 2 + 5 / 2) * ((10 : ℚ) * V) / 5 = (V : ℚ) * (a + 5) := by ring
  have vy : (-((b : ℚ) / 2) + 5 / 2) * ((10 : ℚ) * U) / 5 = (U : ℚ) * (5 - b) := by ring
  rw [vx, vy] at key
  exact key

/-- The outline of C6 in binary64: on a 320 x 320 canvas with `n = 5` the
vertices `(-0.5, -0.5)`, `(0.5, -0.5)`, `(0.5, 0.5)`, `(-0.5, 0.5)` and the centre
`(0, 0)` are mapped, by the operations the program performs, to `(128,192)`,
`(192,192)`, `(192,128)`, `(128,128)` and `(160,160)`. -/
theorem outline_on_320_binary64 :
    (mapToViewport (F64.fin false 320) (F64.fin false 320) (F64.fin true (1 / 2))
        (F64.fin true (1 / 2)) (F64.fin false 5)).1.Represents 128
      ∧ (mapToViewport (F64.fin false 320) (F64.fin false 320) (F64.fin true (1 / 2))
        (F64.fin true (1 / 2)) (F64.fin false 5)).2.Represents 192
      ∧ (mapToViewport (F64.fin false 320) (F64.fin false 320) (F64.fin false (1 / 2))
        (F64.fin false (1 / 2)) (F64.fin false 5)).1.Represents 192
      ∧ (mapToViewport (F64.fin false 320) (F64.fin false 320) (F64.fin false (1 / 2))
        (F64.fin false (1 / 2)) (F64.fin false 5)).2.Represents 128
      ∧ (mapToViewport (F64.fin false 320) (F64.fin false 320) (F64.fin false 0)
        (F64.fin false 0) (F64.fin false 5)).1.Represents 160
      ∧ (mapToViewport (F64.fin false 320) (F64.fin false 320) (F64.fin false 0)
        (F64.fin false 0) (F64.fin false 5)).2.Represents 160 := by
  have hm : (F64.fin true (1 / 2)).Represents (((-1 : ℤ) : ℚ) / 2) :=
    ⟨true, 1 / 2, rfl, by norm_num, by norm_num [sval]⟩
  have hp : (F64.fin false (1 / 2)).Represents (((1 : ℤ) : ℚ) / 2) :=
    ⟨false, 1 / 2, rfl, by norm_num, by norm_num [sval]⟩
  have hz : (F64.fin false 0).Represents (((0 : ℤ) : ℚ) / 2) :=
    ⟨false, 0, rfl, le_rfl, by norm_num [sval]⟩
  have k1 := mapToViewport_exact_on_canvas 32 32 (-1) (-1) (by norm_num) (by norm_num)
    (by norm_num) (by norm_num) hm hm
  have k2 := mapToViewport_exact_on_canvas 32 32 1 1 (by norm_num) (by norm_num)
    (by norm_num) (by norm_num) hp hp
  have k3 := mapToViewport_exact_on_canvas 32 32 0 0 (by norm_num) (by norm_num)
    (by norm_num) (by norm_num) hz hz
  norm_num at k1 k2 k3
  exact ⟨k1.2.1, k1.2.2, k2.2.1, k2.2.2, k3.2.1, k3.2.2⟩

/-- The corners of C8 in binary64: on a 320 x 320 canvas with `n = 5` the
operations the program performs send `(-5, -5)` to `(-160, 480)` and `(5, 5)` to
`(480, -160)`. -/
theorem docstring_window_binary64 :
    (mapToViewport (F64.fin false 320) (F64.fin false 320) (F64.fin true 5)
        (F64.fin true 5) (F64.fin false 5)).1.Represents (-160)
      ∧ (mapToViewport (F64.fin false 320) (F64.fin false 320) (F64.fin true 5)
        (F64.fin true 5) (F64.fin false 5)).2.Represents 480
      ∧ (mapToViewport (F64.fin false 320) (F64.fin false 320) (F64.fin false 5)
        (F64.fin false 5) (F64.fin false 5)).1.Represents 480
      ∧ (mapToViewport (F64.fin false 320) (F64.fin false 320) (F64.fin false 5)
        (F64.fin false 5) (F64.fin false 5)).2.Represents (-160) := by
  have hm : (F64.fin true 5).Represents (((-10 : ℤ) : ℚ) / 2) :=
    ⟨true, 5, rfl, by norm_num, by norm_num [sval]⟩
  have hp : (F64.fin false 5).Represents (((10 : ℤ) : ℚ) / 2) :=
    ⟨false, 5, rfl, by norm_num, by norm_num [sval]⟩
  have k1 := mapToViewport_exact_on_canvas 32 32 (-10) (-10) (by norm_num) (by norm_num)
    (by norm_num) (by norm_num) hm hm
  have k2 := mapToViewport_exact_on_canvas 32 32 10 10 (by norm_num) (by norm_num)
    (by norm_num) (by norm_num) hp hp
  norm_num at k1 k2
  exact ⟨k1.2.1, k1.2.2, k2.2.1, k2.2.2⟩

/-- The outline of C9 in binary64: on a 400 x 400 canvas with `n = 5` the
operations the program performs send the vertices `(-0.5, -0.5)` and `(0.5, 0.5)`
to the marker centres `(160, 240)` and `(240, 160)`. -/
theorem outline_on_400_binary64 :
    (mapToViewport (F64.fin false 400) (F64.fin false 400) (F64.fin true (1 / 2))
        (F64.fin true (1 / 2)) (F64.fin false 5)).1.Represents 160
      ∧ (mapToViewport (F64.fin false 400) (F64.fin false 400) (F64.fin true (1 / 2))
        (F64.fin true (1 / 2)) (F64.fin false 5)).2.Represents 240
      ∧ (mapToViewport (F64.fin false 400) (F64.fin false 400) (F64.fin false (1 / 2))
        (F64.fin false (1 / 2)) (F64.fin false 5)).1.Represents 240
      ∧ (mapToViewport (F64.fin false 400) (F64.fin false 400) (F64.fin false (1 / 2))
        (F64.fin false (1 / 2)) (F64.fin false 5)).2.Represents 160 := by
  have hm : (F64.fin true (1 / 2)).Represents (((-1 : ℤ) : ℚ) / 2) :=
    ⟨true, 1 / 2, rfl, by norm_num, by norm_num [sval]⟩
  have hp : (F64.fin false (1 / 2)).Represents (((1 : ℤ) : ℚ) / 2) :=
    ⟨false, 1 / 2, rfl, by norm_num, by norm_num [sval]⟩
  have k1 := mapToViewport_exact_on_canvas 40 40 (-1) (-1) (by norm_num) (by norm_num)
    (by norm_num) (by norm_num) hm hm
  have k2 := mapToViewport_exact_on_canvas 40 40 1 1 (by norm_num) (by norm_num)
    (by norm_num) (by norm_num) hp hp
  norm_num at k1 k2
  exact ⟨k1.2.1, k1.2.2, k2.2.1, k2.2.2⟩

end Binary64

/-! ## The docstring of the coordinate mapper (C8) -/

/-- C8. On a 320 x 320 canvas with `n = 5` the corner `(-n, -n)` of the window
of the docstring goes to `(-160, 480)` and the corner `(n, n)` to `(480, -160)`,
where the docstring says `(-w, h) = (-320, 320)` and `(w, -h) = (320, -320)`. -/
theorem mapToViewport_docstring_window :
    mapToViewport (320 : ℚ) 320 (-5) (-5) 5 = (some (-160), some 480)
      ∧ mapToViewport (320 : ℚ) 320 5 5 5 = (some 480, some (-160))
      ∧ mapToViewport (320 : ℚ) 320 (-5) (-5) 5 ≠ (some (-320), some 320)
      ∧ mapToViewport (320 : ℚ) 320 5 5 5 ≠ (some 320, some (-320)) := by
  have h5 : (5 : ℚ) ≠ 0 := by norm_num
  rw [mapToViewport_of_ne _ _ _ _ h5, mapToViewport_of_ne _ _ _ _ h5]
  norm_num

/-! ## The geometry store (C2) -/

/-- C2, as stated, fails at `i = -1`: `getVertex(-1)` is `[undefined, undefined]`,
not the point `(-0.5, 0.5)` stored at position `-1 mod 6 = 5`, and it differs
from `getVertex(-1 + 6)`. -/
theorem getVertex_negative_counterexample :
    (getVertex (-1) : Option ℚ × Option ℚ) = (none, none)
      ∧ ((vertices ℚ)[2 * ((-1 : Int) % 6).toNat]?,
          (vertices ℚ)[2 * ((-1 : Int) % 6).toNat + 1]?) = (some (-0.5), some 0.5)
      ∧ (getVertex (-1) : Option ℚ × Option ℚ) ≠ getVertex (-1 + 6) := by
  have hm : Int.tmod (-1) 6 = -1 := by decide
  have h5 : Int.tmod 5 6 = 5 := by decide
  have e5 : ((-1 : Int) % 6).toNat = 5 := by decide
  refine ⟨?_, ?_, ?_⟩
  · simp [getVertex, numPoints_eq, typedArrayGet, hm]
  · simp [e5, vertices]
  · simp [getVertex, numPoints_eq, typedArrayGet, hm, h5, vertices]

/-- C2, amended. For every integer `i ≥ 0`, `getVertex(i)` is the point stored at
position `i mod 6` of the vertex list (the numbers at `2 * (i mod 6)` and
`2 * (i mod 6) + 1` of `vertices`), both coordinates are numbers, and
`getVertex(i + 6) = getVertex(i)`. -/
theorem getVertex_nonneg (i : Int) (hi : 0 ≤ i) :
    (getVertex i : Option α × Option α)
        = ((vertices α)[2 * (i % 6).toNat]?, (vertices α)[2 * (i % 6).toNat + 1]?)
      ∧ (i % 6).toNat < 6
      ∧ (∃ x y : α, (getVertex i : Option α × Option α) = (some x, some y))
      ∧ (getVertex (i + 6) : Option α × Option α) = getVertex i := by
  have hlt : i % 6 < 6 := Int.emod_lt_of_pos i (by norm_num)
  have hge : 0 ≤ i % 6 := Int.emod_nonneg i (by norm_num)
  have hk : ((i % 6).toNat : Int) = i % 6 := Int.toNat_of_nonneg hge
  have hk6 : (i % 6).toNat < 6 := by omega
  have ht : Int.tmod i 6 = ((i % 6).toNat : Int) := by
    rw [hk]; exact Int.tmod_eq_emod hi (by norm_num)
  have ht6 : Int.tmod (i + 6) 6 = ((i % 6).toNat : Int) := by
    rw [hk, Int.tmod_eq_emod (by omega) (by norm_num)]; omega
  have e := @getVertex_of_tmod α _ _ i ht
  have e6 := @getVertex_of_tmod α _ _ (i + 6) ht6
  refine ⟨e, hk6, ?_, e6.trans e.symm⟩
  rw [e]
  generalize (i % 6).toNat = k at hk6
  interval_cases k <;> simp [vertices]

/-- The vertex store of C2 at `i = 7`: the point at position 1, and the same as
`getVertex(13)`. -/
theorem getVertex_nonneg_witness :
    (0 : Int) ≤ 7
      ∧ (getVertex 7 : Option ℚ × Option ℚ)
          = ((vertices ℚ)[2 * ((7 : Int) % 6).toNat]?,
              (vertices ℚ)[2 * ((7 : Int) % 6).toNat + 1]?)
      ∧ (getVertex (7 + 6) : Option ℚ × Option ℚ) = getVertex 7 :=
  ⟨by decide, (getVertex_nonneg 7 (by decide)).1, (getVertex_nonneg 7 (by decide)).2.2.2⟩

/-! ## The frame renderer (C5, C6, C9) -/

/-- C5. For every scale factor `s` and canvas size, the outline path that `draw`
builds is `beginPath`, `moveTo(P0)`, `lineTo(P1)`, `lineTo(P2)`, `lineTo(P5)`,
`closePath`, where `P_i = mapToViewport(s * x_i, s * y_i)` with `n = 5` and
`(x_i, y_i) = getVertex(i)`; the indices 3 and 4 add no call to the path. -/
theorem draw_outline_path (host : Host α) (w h s : α) :
    ∃ p0 p1 p2 p5 : α × α,
      outlinePoint w h s 0 = some p0 ∧ outlinePoint w h s 1 = some p1
      ∧ outlinePoint w h s 2 = some p2 ∧ outlinePoint w h s 5 = some p5
      ∧ firstClosedPath (draw host w h s)
          = [Cmd.beginPath, Cmd.moveTo p0.1 p0.2, Cmd.lineTo p1.1 p1.2,
             Cmd.lineTo p2.1 p2.2, Cmd.lineTo p5.1 p5.2, Cmd.closePath]
      ∧ drawVertex w h s 3 = [] ∧ drawVertex w h s 4 = [] := by
  refine ⟨_, _, _, _, outlinePoint_zero w h s, outlinePoint_one w h s,
    outlinePoint_two w h s, outlinePoint_five w h s, ?_, ?_, ?_⟩
  · rw [firstClosedPath_draw, drawOutline_eq]
  · simp [drawVertex]
  · simp [drawVertex]

/-- C6. On a 320 x 320 canvas, with `n = 5` and the scale 1.0, the outline points
of `draw` are `(128,192)`, `(192,192)`, `(192,128)`, `(128,128)`, the images of the
vertices 0, 1, 2, 5: the corners `(160 ± 32, 160 ± 32)` of a square of side 64
about `(160,160)`, the image of `(0,0)`; the vertices with `y = 0.5` (2 and 5) get
the pixel `y = 128`, those with `y = -0.5` (0 and 1) get `192`. -/
theorem outline_on_320 (host : Host α) :
    pathPoints (firstClosedPath (draw host 320 320 scale))
        = [((128 : α), (192 : α)), (192, 192), (192, 128), (128, 128)]
      ∧ ((getVertex 0 : Option α × Option α) = (some (-0.5), some (-0.5))
          ∧ outlinePoint (320 : α) 320 scale 0 = some (128, 192))
      ∧ ((getVertex 1 : Option α × Option α) = (some 0.5, some (-0.5))
          ∧ outlinePoint (320 : α) 320 scale 1 = some (192, 192))
      ∧ ((getVertex 2 : Option α × Option α) = (some 0.5, some 0.5)
          ∧ outlinePoint (320 : α) 320 scale 2 = some (192, 128))
      ∧ ((getVertex 5 : Option α × Option α) = (some (-0.5), some 0.5)
          ∧ outlinePoint (320 : α) 320 scale 5 = some (128, 128))
      ∧ mapToViewport (320 : α) 320 0 0 5 = (some 160, some 160)
      ∧ [((128 : α), (192 : α)), (192, 192), (192, 128), (128, 128)]
          = [(160 - 32, 160 + 32), (160 + 32, 160 + 32), (160 + 32, 160 - 32),
             (160 - 32, 160 - 32)]
      ∧ (192 : α) - 128 = 64 := by
  refine ⟨?_, ⟨getVertex_zero, ?_⟩, ⟨getVertex_one, ?_⟩, ⟨getVertex_two, ?_⟩,
    ⟨getVertex_five, ?_⟩, ?_, ?_, ?_⟩
  · rw [firstClosedPath_draw, drawOutline_eq]
    simp only [pathPoints, scale]
    norm_num
  · rw [outlinePoint_zero]; simp only [scale]; norm_num
  · rw [outlinePoint_one]; simp only [scale]; norm_num
  · rw [outlinePoint_two]; simp only [scale]; norm_num
  · rw [outlinePoint_five]; simp only [scale]; norm_num
  · rw [mapToViewport_of_ne _ _ _ _ five_ne_zero]; norm_num
  · norm_num
  · norm_num

/-- C9. The marker centres of a frame are `(160,240)` red, `(240,240)` white,
`(240,160)` blue, `(160,160)` green, and they are the points about which the
animation callback rotates for `r`, `w`, `b`, `g`; at the scale 1.0 and `n = 5`
the outline points of the vertices 0, 1, 2, 5 are these four points, in this
order, if and only if the canvas size is `w = h = 400`. -/
theorem markers_are_corners_iff (host : Host α) (w h : α) :
    (markerCentre host w h "red" = some (160, 240)
        ∧ markerCentre host w h "white" = some (240, 240)
        ∧ markerCentre host w h "blue" = some (240, 160)
        ∧ markerCentre host w h "green" = some (160, 160))
      ∧ (runanimationAnchor host w h "r" = markerCentre host w h "red"
        ∧ runanimationAnchor host w h "w" = markerCentre host w h "white"
        ∧ runanimationAnchor host w h "b" = markerCentre host w h "blue"
        ∧ runanimationAnchor host w h "g" = markerCentre host w h "green")
      ∧ ((pathPoints (firstClosedPath (draw host w h scale))).map some
            = [markerCentre host w h "red", markerCentre host w h "white",
               markerCentre host w h "blue", markerCentre host w h "green"]
          ↔ w = 400 ∧ h = 400) := by
  have hr : markerCentre host w h "red" = some (160, 240) := by
    simp [markerCentre, filledMarkers_draw, List.lookup]
  have hw : markerCentre host w h "white" = some (240, 240) := by
    simp [markerCentre, filledMarkers_draw, List.lookup]
  have hb : markerCentre host w h "blue" = some (240, 160) := by
    simp [markerCentre, filledMarkers_draw, List.lookup]
  have hg : markerCentre host w h "green" = some (160, 160) := by
    simp [markerCentre, filledMarkers_draw, List.lookup]
  refine ⟨⟨hr, hw, hb, hg⟩, ⟨?_, ?_, ?_, ?_⟩, ?_⟩
  · rw [hr]; simp [runanimationAnchor, runanimationCalls, firstTranslate_draw_append]; rfl
  · rw [hw]; simp [runanimationAnchor, runanimationCalls, firstTranslate_draw_append]; rfl
  · rw [hb]; simp [runanimationAnchor, runanimationCalls, firstTranslate_draw_append]; rfl
  · rw [hg]; simp [runanimationAnchor, runanimationCalls, firstTranslate_draw_append]; rfl
  · rw [hr, hw, hb, hg, firstClosedPath_draw, drawOutline_eq]
    simp only [pathPoints, scale, List.map_cons, List.map_nil, List.cons.injEq,
      Option.some.injEq, Prod.mk.injEq, and_true]
    constructor
    · rintro ⟨⟨h1, h2⟩, -⟩
      constructor
      · have : (-0.5 * 1.0 + 5 / 2) * w = 160 * 5 := by
          rw [← h1]; field_simp; ring
        norm_num at this
        linarith
      · have : (-(-0.5 * 1.0) + 5 / 2) * h = 240 * 5 := by
          rw [← h2]; field_simp; ring
        norm_num at this
        linarith
    · rintro ⟨rfl, rfl⟩
      norm_num

/-! ## Lemmas on the animation driver -/

theorem Affine.mul_assoc (m k l : Affine α) : (m.mul k).mul l = m.mul (k.mul l) := by
  ext <;> simp only [Affine.mul] <;> ring

theorem Affine.identity_mul (m : Affine α) : Affine.identity.mul m = m := by
  ext <;> simp [Affine.mul, Affine.identity]

theorem Affine.mul_identity (m : Affine α) : m.mul Affine.identity = m := by
  ext <;> simp [Affine.mul, Affine.identity]

theorem Affine.apply_mul (m k : Affine α) (p : α × α) :
    (m.mul k).apply p = m.apply (k.apply p) := by
  simp only [Affine.apply, Affine.mul, Prod.mk.injEq]
  constructor <;> ring

/-- A rotation about `p` leaves `p` where it is, whatever the cosine and sine. -/
theorem rotationAbout_apply_self (host : Host α) (theta : α) (p : α × α) :
    (rotationAbout host theta p).apply p = p := by
  rcases p with ⟨x, y⟩
  simp only [rotationAbout, Affine.apply, Affine.mul, Affine.translation, Affine.rotation,
    Prod.mk.injEq]
  constructor <;> ring

/-- The three calls that follow `draw` in a branch of the callback post-multiply
the matrix by the rotation about the anchor. -/
theorem execAll_pivot (host : Host α) (ctm : Affine α) (x y : α) :
    execAll host ctm
        [Cmd.translate x y, Cmd.rotate (angle host), Cmd.translate (-x) (-y)]
      = ctm.mul (rotationAbout host (angle host) (x, y)) := by
  simp only [execAll, List.foldl_cons, List.foldl_nil, Cmd.exec, rotationAbout,
    Affine.mul_assoc]

theorem execAll_append (host : Host α) (ctm : Affine α) (xs ys : List (Cmd α)) :
    execAll host ctm (xs ++ ys) = execAll host (execAll host ctm xs) ys := by
  simp [execAll, List.foldl_append]

/-- One run of the callback in the pivot state `s` post-multiplies the matrix by
`M(s)`. -/
theorem runanimation_ctm (host : Host α) (w h : α) (st : Anim α) (s : Pivot)
    (hs : st.input = s.key) :
    (runanimation host w h st).ctm = st.ctm.mul (s.matrix host) := by
  have hm : s.matrix host = rotationAbout host (angle host) s.anchor := rfl
  rw [hm]
  cases s <;>
    simp [runanimation, hs, Pivot.key, runanimationCalls, execAll_append, execAll_draw,
      execAll_pivot, Pivot.anchor]

theorem runanimation_input (host : Host α) (w h : α) (st : Anim α) :
    (runanimation host w h st).input = st.input := rfl

theorem keydown_key (input : String) (s : Pivot) : keydown input s.key = s.key := by
  cases s <;> simp [keydown, Pivot.key]

theorem keydown_other (input k : String) (hk : k ∉ ["r", "g", "b", "w"]) :
    keydown input k = input := by
  simp only [List.mem_cons, List.mem_singleton, List.not_mem_nil, or_false, not_or] at hk
  simp [keydown, hk.1, hk.2.1, hk.2.2.1, hk.2.2.2]

theorem keydown_isPivot (input k : String) (hi : ∃ s : Pivot, input = s.key) :
    ∃ s : Pivot, keydown input k = s.key := by
  by_cases hk : k ∈ ["r", "g", "b", "w"]
  · simp only [List.mem_cons, List.mem_singleton, List.not_mem_nil, or_false] at hk
    rcases hk with rfl | rfl | rfl | rfl
    · exact ⟨.red, keydown_key input .red⟩
    · exact ⟨.green, keydown_key input .green⟩
    · exact ⟨.blue, keydown_key input .blue⟩
    · exact ⟨.white, keydown_key input .white⟩
  · rw [keydown_other input k hk]; exact hi

theorem run_cons (host : Host α) (w h : α) (st : Anim α) (e : Event) (es : List Event) :
    run host w h st (e :: es) = run host w h (step host w h st e) es := rfl

theorem run_nil (host : Host α) (w h : α) (st : Anim α) : run host w h st [] = st := rfl

theorem step_frame (host : Host α) (w h : α) (st : Anim α) :
    step host w h st Event.frame = runanimation host w h st := rfl

theorem step_key (host : Host α) (w h : α) (st : Anim α) (k : String) :
    step host w h st (Event.key k) = ⟨keydown st.input k, st.ctm⟩ := rfl

/-- Pressing the key of `s` and letting one frame pass, for each `s` of a list:
the matrix is post-multiplied by `M(s)` for each `s` in turn. -/
theorem run_pivots (host : Host α) (w h : α) (ss : List Pivot) (st : Anim α) :
    (run host w h st (ss.flatMap fun s => [Event.key s.key, Event.frame])).ctm
      = (ss.map (Pivot.matrix host)).foldl Affine.mul st.ctm := by
  induction ss generalizing st with
  | nil => rfl
  | cons s ss ih =>
    simp only [List.flatMap_cons, List.cons_append, List.nil_append, run_cons, List.map_cons,
      List.foldl_cons]
    rw [ih]
    congr 1
    exact runanimation_ctm host w h _ s (keydown_key st.input s)

/-- Whatever the events, every frame post-multiplies the matrix by the rotation of
one pivot state, and nothing else changes the matrix. -/
theorem run_events (host : Host α) (w h : α) (events : List Event) (st : Anim α)
    (hst : ∃ s : Pivot, st.input = s.key) :
    ∃ ss : List Pivot, ss.length = events.count Event.frame
      ∧ (run host w h st events).ctm = (ss.map (Pivot.matrix host)).foldl Affine.mul st.ctm := by
  induction events generalizing st with
  | nil => exact ⟨[], rfl, rfl⟩
  | cons e es ih =>
    cases e with
    | key k =>
      obtain ⟨ss, hlen, hctm⟩ :=
        ih (step host w h st (Event.key k)) (keydown_isPivot st.input k hst)
      refine ⟨ss, ?_, ?_⟩
      · rw [hlen]; simp
      · rw [run_cons, hctm]; rfl
    | frame =>
      obtain ⟨s, hs⟩ := hst
      obtain ⟨ss, hlen, hctm⟩ := ih (step host w h st Event.frame) ⟨s, hs⟩
      refine ⟨s :: ss, ?_, ?_⟩
      · simp [hlen]
      · rw [run_cons, hctm]
        simp only [List.map_cons, List.foldl_cons]
        congr 1
        exact runanimation_ctm host w h st s hs

/-- Frames that all run in the state `s` keep the anchor of `s` fixed, when the
matrix they start from does. -/
theorem run_frames_apply (host : Host α) (w h : α) (s : Pivot) (k : Nat) (st : Anim α)
    (hs : st.input = s.key) (hfix : st.ctm.apply s.anchor = s.anchor) :
    (run host w h st (List.replicate k Event.frame)).ctm.apply s.anchor = s.anchor := by
  induction k generalizing st with
  | zero => exact hfix
  | succ k ih =>
    rw [List.replicate_succ, run_cons]
    apply ih
    · exact hs
    · show (runanimation host w h st).ctm.apply s.anchor = s.anchor
      rw [runanimation_ctm host w h st s hs, Affine.apply_mul, Pivot.matrix,
        rotationAbout_apply_self, hfix]

/-! ## The animation driver (C3, C4, C10) -/

/-- C3. The selector starts as `"r"`; a key event with one of the keys `r`, `g`,
`b`, `w` sets it to that key whatever it was; a key event with any other key
leaves it as it was, and so does a frame, so that after another key and the next
frame it is still unchanged. -/
theorem pivot_selector (host : Host α) (w h : α) (st : Anim α) (k : String) :
    (Anim.start : Anim α).input = "r"
      ∧ (k ∈ ["r", "g", "b", "w"] → (step host w h st (Event.key k)).input = k)
      ∧ (k ∉ ["r", "g", "b", "w"] →
          (step host w h st (Event.key k)).input = st.input
            ∧ (run host w h st [Event.key k, Event.frame]).input = st.input)
      ∧ (step host w h st Event.frame).input = st.input := by
  refine ⟨rfl, ?_, ?_, rfl⟩
  · intro hk
    simp only [List.mem_cons, List.mem_singleton, List.not_mem_nil, or_false] at hk
    rcases hk with rfl | rfl | rfl | rfl
    · exact keydown_key st.input .red
    · exact keydown_key st.input .green
    · exact keydown_key st.input .blue
    · exact keydown_key st.input .white
  · intro hk
    exact ⟨keydown_other st.input k hk, keydown_other st.input k hk⟩

/-- The selector of C3 from the start: `g` selects green, `x` leaves red. -/
theorem pivot_selector_witness :
    ("g" ∈ ["r", "g", "b", "w"] ∧ "x" ∉ ["r", "g", "b", "w"])
      ∧ (step (⟨0, fun _ => 1, fun _ => 0⟩ : Host ℚ) 400 400 Anim.start (Event.key "g")).input
          = "g"
      ∧ (run (⟨0, fun _ => 1, fun _ => 0⟩ : Host ℚ) 400 400 Anim.start
          [Event.key "x", Event.frame]).input = (Anim.start : Anim ℚ).input :=
  ⟨⟨by decide, by decide⟩,
    (pivot_selector ⟨0, fun _ => 1, fun _ => 0⟩ 400 400 Anim.start "g").2.1 (by decide),
    ((pivot_selector ⟨0, fun _ => 1, fun _ => 0⟩ 400 400 Anim.start "x").2.2.1
      (by decide)).2⟩

/-- C4. Starting from the identity, when the pivot states `s1, ..., sk` are active
at `k` successive frames the matrix of the context is `M(s1) * ... * M(sk)`, with
`M(s) = translate(a_s) . rotate(angle) . translate(-a_s)` and
`angle = -2 * Math.PI / 180`; for any sequence of events the matrix is such a
product with one factor per frame; after one frame it is `M(red)`, and after a
frame, the key `g` and another frame it is `M(red) * M(green)`. -/
theorem accumulated_transform (host : Host α) (w h : α) :
    (∀ ss : List Pivot,
        (run host w h Anim.start (ss.flatMap fun s => [Event.key s.key, Event.frame])).ctm
          = composeAll (ss.map (Pivot.matrix host)))
      ∧ (∀ events : List Event, ∃ ss : List Pivot,
          ss.length = events.count Event.frame
            ∧ (run host w h Anim.start events).ctm = composeAll (ss.map (Pivot.matrix host)))
      ∧ (∀ s : Pivot, Pivot.matrix host s
          = ((Affine.translation s.anchor.1 s.anchor.2).mul
              (Affine.rotation (host.cos (angle host)) (host.sin (angle host)))).mul
              (Affine.translation (-s.anchor.1) (-s.anchor.2)))
      ∧ (run host w h Anim.start [Event.frame]).ctm = Pivot.matrix host Pivot.red
      ∧ (run host w h Anim.start [Event.frame, Event.key "g", Event.frame]).ctm
          = (Pivot.matrix host Pivot.red).mul (Pivot.matrix host Pivot.green) := by
  refine ⟨fun ss => run_pivots host w h ss Anim.start,
    fun events => run_events host w h events Anim.start ⟨Pivot.red, rfl⟩, fun s => rfl, ?_, ?_⟩
  · simp only [run_cons, run_nil, step_frame]
    rw [runanimation_ctm host w h Anim.start Pivot.red rfl]
    exact Affine.identity_mul _
  · have h1 : (runanimation host w h Anim.start).ctm = Pivot.matrix host Pivot.red := by
      rw [runanimation_ctm host w h Anim.start Pivot.red rfl]
      exact Affine.identity_mul _
    have hk : keydown (runanimation host w h (Anim.start : Anim α)).input "g"
        = Pivot.green.key :=
      keydown_key (runanimation host w h (Anim.start : Anim α)).input Pivot.green
    simp only [run_cons, run_nil, step_frame, step_key]
    rw [runanimation_ctm host w h _ Pivot.green hk]
    simp only [h1]

/-- C10. For each pivot state `s`, the point about which the callback rotates in
the state `s` is the centre of the marker that `draw` fills with the colour of
`s`; the rotation about it by any angle `theta` maps it to itself; and after `k`
frames that all run in the state `s` from the identity matrix, the matrix of the
context still maps it to itself. -/
theorem pivot_marker_fixed (host : Host α) (w h : α) (s : Pivot) (theta : α) (k : Nat) :
    runanimationAnchor host w h s.key = some s.anchor
      ∧ markerCentre host w h s.colour = some s.anchor
      ∧ runanimationCalls host w h s.key
          = draw host w h scale
            ++ [Cmd.translate s.anchor.1 s.anchor.2, Cmd.rotate (angle host),
                Cmd.translate (-s.anchor.1) (-s.anchor.2)]
      ∧ (execAll host Affine.identity
            [Cmd.translate s.anchor.1 s.anchor.2, Cmd.rotate theta,
             Cmd.translate (-s.anchor.1) (-s.anchor.2)]).apply s.anchor = s.anchor
      ∧ (run host w h ⟨s.key, Affine.identity⟩ (List.replicate k Event.frame)).ctm.apply
          s.anchor = s.anchor := by
  have hcalls : runanimationCalls host w h s.key
      = draw host w h scale
        ++ [Cmd.translate s.anchor.1 s.anchor.2, Cmd.rotate (angle host),
            Cmd.translate (-s.anchor.1) (-s.anchor.2)] := by
    cases s <;> simp [runanimationCalls, Pivot.key, Pivot.anchor]
  refine ⟨?_, ?_, hcalls, ?_, ?_⟩
  · rw [runanimationAnchor, hcalls, firstTranslate_draw_append]
    rfl
  · cases s <;> simp [markerCentre, filledMarkers_draw, List.lookup, Pivot.colour, Pivot.anchor]
  · have e : execAll host Affine.identity
          [Cmd.translate s.anchor.1 s.anchor.2, Cmd.rotate theta,
           Cmd.translate (-s.anchor.1) (-s.anchor.2)]
        = rotationAbout host theta s.anchor := by
      simp only [execAll, List.foldl_cons, List.foldl_nil, Cmd.exec, rotationAbout,
        Affine.identity_mul]
    rw [e, rotationAbout_apply_self]
  · apply run_frames_apply host w h s k ⟨s.key, Affine.identity⟩ rfl
    simp [Affine.apply, Affine.identity]

end Treco
